import Mathlib

/-!
Verification of the adk_npl repository core: the resilient HTTP client
(client.py, retry.py), the tool compiler (tools.py) and the utilities
(utils.py), shallowly embedded in Lean.  Python floats are modelled as
exact rationals, machine-level time as an explicit parameter, and the
HTTP transport as a function from attempt number to outcome.
-/

namespace AdkNpl


/-- Association-list lookup, modelling Python dict indexing / dict.get. -/
def assocLookup {β : Type} : List (String × β) → String → Option β
  | [], _ => none
  | (k, v) :: rest, key => if k = key then some v else assocLookup rest key

/-- Association-list removal, modelling Python del d[key] / dict.pop on a
dict whose keys are unique. -/
def assocErase {β : Type} : List (String × β) → String → List (String × β)
  | [], _ => []
  | (k, v) :: rest, key =>
    if k = key then assocErase rest key else (k, v) :: assocErase rest key

/-- Association-list update, modelling Python dict assignment: an existing
key keeps its position, a new key is appended at the end. -/
def assocSet {β : Type} : List (String × β) → String → β → List (String × β)
  | [], key, v => [(key, v)]
  | (k, w) :: rest, key, v =>
    if k = key then (key, v) :: rest else (k, w) :: assocSet rest key v

/-! ### retry.py -/

/-- retry.py, is_retryable_status_code: retry on 5xx server errors and on
429 rate limiting. -/
def is_retryable_status_code (status_code : ℕ) : Bool :=
  500 ≤ status_code || status_code == 429

/-- retry.py / client.py backoff formula:
delay = min(initial_delay * (exponential_base ** attempt), max_delay). -/
def retry_backoff_delay (initial_delay max_delay exponential_base : ℚ)
    (attempt : ℕ) : ℚ :=
  min (initial_delay * exponential_base ^ attempt) max_delay

/-- client.py line 208, the hardcoded backoff of _make_request:
delay = min(1.0 * (2.0 ** attempt), 60.0). -/
def client_backoff_delay (attempt : ℕ) : ℚ :=
  min (1 * 2 ^ attempt) 60

/-- random.uniform(0, hi) modelled as u * hi for a sample u in [0, 1];
the jitter added to a backoff delay is uniform(0, delay * 0.1). -/
def backoff_jitter (delay : ℚ) (u : ℚ) : ℚ :=
  u * (delay * (1 / 10))

/-! ### client.py NPLClient._make_request -/

/-- Outcome of one call of session.request: either a response with a
status code, or a raised requests exception which is or is not
classified retryable by is_retryable_exception. -/
inductive HttpOutcome where
  | resp (code : ℕ)
  | netErr (retryable : Bool)
deriving DecidableEq

/-- requests Response.ok: status code below 400. -/
def response_ok (code : ℕ) : Bool := code < 400

/-- The typed error taxonomy raised by _make_request on terminal failure
(utils.py error classes plus the two raise sites of client.py). -/
inductive ReqError where
  /-- _handle_response_error on a 401: TokenExpiredError. -/
  | tokenExpired
  /-- _handle_response_error on a 503: ServiceUnavailableError. -/
  | serviceUnavailable
  /-- _handle_response_error on any other non-2xx: NPLClientError. -/
  | clientError (code : ℕ)
  /-- client.py line 221: NPLClientError raised when the budget is spent
  on a request exception. -/
  | maxRetriesExceeded
  /-- client.py line 226: the original exception re-raised when it is not
  retryable and budget remains. -/
  | reraised
  /-- client.py line 230: the defensive raise after the loop (unreachable). -/
  | loopFallthrough
deriving DecidableEq

/-- Whether a terminal error is one of the typed client errors declared in
utils.py (every case except re-raising the untyped original exception). -/
def ReqError.isTyped : ReqError → Bool
  | .reraised => false
  | _ => true

/-- client.py _handle_response_error: 401 to TokenExpiredError, 503 to
ServiceUnavailableError, everything else to NPLClientError. -/
def handle_response_error (code : ℕ) : ReqError :=
  if code = 401 then .tokenExpired
  else if code = 503 then .serviceUnavailable
  else .clientError code

/-- Observable events of one _make_request run: each issued HTTP attempt
with the bearer token it carries, and each token refresh
(token_refresh_callback invocation followed by set_auth_token). -/
inductive ReqEvent where
  | attemptStart (attempt : ℕ) (token : String)
  | tokenRefresh (token : String)
deriving DecidableEq

def isAttemptStart : ReqEvent → Bool
  | .attemptStart _ _ => true
  | _ => false

/-- Number of HTTP attempts recorded in an event list. -/
def num_attempts (evs : List ReqEvent) : ℕ :=
  (evs.filter isAttemptStart).length

structure RunResult where
  events : List ReqEvent
  outcome : Except ReqError ℕ

/-- client.py lines 146-150: at the start of every retry attempt (attempt
greater than zero) with a configured callback, invoke the callback and
install the returned token via set_auth_token.  Returns the emitted
events, the token the attempt will carry, and the updated callback
invocation count. -/
def refresh_step (cb : Option (ℕ → String)) (attempt : ℕ) (token : String)
    (cbCalls : ℕ) : List ReqEvent × String × ℕ :=
  match cb with
  | some f =>
      if 0 < attempt then
        ([ReqEvent.tokenRefresh (f cbCalls)], f cbCalls, cbCalls + 1)
      else ([], token, cbCalls)
  | none => ([], token, cbCalls)

/-- The body of client.py _make_request, lines 143-233.  The for loop over
range(max_retries + 1) becomes structural recursion on the remaining fuel
(fuel = max_retries + 1 - attempt at every call).  The transport maps each
attempt number to its outcome; cb is the optional token_refresh_callback,
modelled as a map from its invocation count to the token it returns;
token and cbCalls carry the mutable token state across attempts. -/
def make_request_go (max_retries : ℕ) (transport : ℕ → HttpOutcome)
    (cb : Option (ℕ → String)) :
    ℕ → ℕ → String → ℕ → RunResult
  | _, 0, _, _ => ⟨[], .error .loopFallthrough⟩
  | attempt, fuel + 1, token, cbCalls =>
    let refreshed := refresh_step cb attempt token cbCalls
    let token1 := refreshed.2.1
    let calls1 := refreshed.2.2
    let evs1 := refreshed.1 ++ [ReqEvent.attemptStart attempt token1]
    match transport attempt with
    | .resp code =>
      -- lines 162-168: the 401-with-callback branch refreshes and continues
      if code = 401 ∧ cb.isSome ∧ attempt < max_retries then
        match cb with
        | some f =>
            let rest := make_request_go max_retries transport cb
              (attempt + 1) fuel (f calls1) (calls1 + 1)
            ⟨evs1 ++ ReqEvent.tokenRefresh (f calls1) :: rest.events, rest.outcome⟩
        | none => ⟨evs1, .error .loopFallthrough⟩
      else if response_ok code then
        ⟨evs1, .ok code⟩
      -- lines 170-186: retryable status codes raise_for_status into the
      -- except branch and retry while budget remains, otherwise the
      -- response error is handled and raised as a typed error
      else if is_retryable_status_code code ∧ attempt < max_retries then
        let rest := make_request_go max_retries transport cb
          (attempt + 1) fuel token1 calls1
        ⟨evs1 ++ rest.events, rest.outcome⟩
      else
        ⟨evs1, .error (handle_response_error code)⟩
    | .netErr r =>
      -- lines 190-226: the except RequestException branch
      if attempt < max_retries ∧ r then
        let rest := make_request_go max_retries transport cb
          (attempt + 1) fuel token1 calls1
        ⟨evs1 ++ rest.events, rest.outcome⟩
      else if max_retries ≤ attempt then
        ⟨evs1, .error .maxRetriesExceeded⟩
      else
        ⟨evs1, .error .reraised⟩

/-- client.py _make_request: run the attempt loop from attempt 0 with
fuel max_retries + 1, the initial token and a fresh callback counter. -/
def make_request (max_retries : ℕ) (transport : ℕ → HttpOutcome)
    (cb : Option (ℕ → String)) (token0 : String) : RunResult :=
  make_request_go max_retries transport cb 0 (max_retries + 1) token0 0

/-- A transport attempt outcome that fails permanently: a retryable
network failure or a response with a retryable status code. -/
def permanently_failing (o : HttpOutcome) : Prop :=
  o = .netErr true ∨ ∃ code, o = .resp code ∧ is_retryable_status_code code = true

/-! ### utils.py Cache -/

/-- utils.py CachedItem: a value with its creation time and TTL. -/
structure CachedItem (α : Type) where
  value : α
  created_at : ℚ
  ttl_seconds : ℚ
deriving DecidableEq

/-- utils.py CachedItem.is_expired: age strictly greater than the TTL.
The current clock reading time.time() is passed explicitly. -/
def CachedItem.is_expired {α : Type} (item : CachedItem α) (now : ℚ) : Bool :=
  decide (item.ttl_seconds < now - item.created_at)

/-- utils.py Cache: the underlying dict and the default TTL. -/
structure Cache (α : Type) where
  cache : List (String × CachedItem α)
  default_ttl : ℚ
deriving DecidableEq

/-- utils.py Cache.get: absent key gives None; an expired entry is
deleted and gives None; otherwise the stored value is returned.  The
result pairs the returned value with the cache state after the call. -/
def Cache.get {α : Type} (c : Cache α) (now : ℚ) (key : String) :
    Option α × Cache α :=
  match assocLookup c.cache key with
  | none => (none, c)
  | some item =>
    if item.is_expired now then
      (none, ⟨assocErase c.cache key, c.default_ttl⟩)
    else
      (some item.value, c)

/-- utils.py Cache.set: ttl = ttl or self.default_ttl (a None or zero TTL
falls back to the default, Python truthiness), then store the item. -/
def Cache.set {α : Type} (c : Cache α) (now : ℚ) (key : String) (value : α)
    (ttl : Option ℚ) : Cache α :=
  let t := match ttl with
    | none => c.default_ttl
    | some q => if q = 0 then c.default_ttl else q
  ⟨assocSet c.cache key ⟨value, now, t⟩, c.default_ttl⟩

/-! ### tools.py NPLToolGenerator.generate_tools, packages loop -/

/-- tools.py lines 153-166: each package either yields a list of tools or
raises during discovery.  The loop extends all_tools with the tools of the
succeeding packages and skips the failing ones. -/
def succeeding_tools {α : Type} : List (Except String (List α)) → List α
  | [] => []
  | .ok ts :: rest => ts ++ succeeding_tools rest
  | .error _ :: rest => succeeding_tools rest

/-- tools.py generate_tools after the package loop: raise
ToolDiscoveryError when no tools were generated, else return them. -/
def generate_tools {α : Type} (results : List (Except String (List α))) :
    Except String (List α) :=
  let all_tools := succeeding_tools results
  if all_tools.isEmpty then
    .error "No tools generated from any package"
  else
    .ok all_tools

/-- Every attempt other than the very first one is immediately preceded
in the event trace by a token refresh installing the very token that the
attempt then carries. -/
def refresh_precedes (evs : List ReqEvent) : Prop :=
  ∀ i n tok, evs[i]? = some (ReqEvent.attemptStart n tok) → n ≠ 0 →
    ∃ j, i = j + 1 ∧ evs[j]? = some (ReqEvent.tokenRefresh tok)

/-! ### JSON values and the tool implementation error wrapping -/

/-- Python values moved through the tool layer: None, an opaque scalar
(string, number or boolean rendered as text), a list, or a dict. -/
inductive Json where
  | null
  | prim (s : String)
  | arr (elems : List Json)
  | obj (fields : List (String × Json))

/-- Fields of a dict value; any other value has none. -/
def Json.fields : Json → List (String × Json)
  | .obj fs => fs
  | _ => []

mutual

def jsonDecEq : (a b : Json) → Decidable (a = b)
  | .null, .null => isTrue rfl
  | .null, .prim _ => isFalse nofun
  | .null, .arr _ => isFalse nofun
  | .null, .obj _ => isFalse nofun
  | .prim _, .null => isFalse nofun
  | .prim a, .prim b =>
      match decEq a b with
      | isTrue h => isTrue (by rw [h])
      | isFalse h => isFalse (fun hh => h (by cases hh; rfl))
  | .prim _, .arr _ => isFalse nofun
  | .prim _, .obj _ => isFalse nofun
  | .arr _, .null => isFalse nofun
  | .arr _, .prim _ => isFalse nofun
  | .arr as, .arr bs =>
      match jsonDecEqList as bs with
      | isTrue h => isTrue (by rw [h])
      | isFalse h => isFalse (fun hh => h (by cases hh; rfl))
  | .arr _, .obj _ => isFalse nofun
  | .obj _, .null => isFalse nofun
  | .obj _, .prim _ => isFalse nofun
  | .obj _, .arr _ => isFalse nofun
  | .obj fs, .obj gs =>
      match jsonDecEqFields fs gs with
      | isTrue h => isTrue (by rw [h])
      | isFalse h => isFalse (fun hh => h (by cases hh; rfl))

def jsonDecEqList : (a b : List Json) → Decidable (a = b)
  | [], [] => isTrue rfl
  | [], _ :: _ => isFalse nofun
  | _ :: _, [] => isFalse nofun
  | a :: as2, b :: bs =>
      match jsonDecEq a b, jsonDecEqList as2 bs with
      | isTrue h1, isTrue h2 => isTrue (by rw [h1, h2])
      | isFalse h1, _ => isFalse (fun hh => h1 (by cases hh; rfl))
      | _, isFalse h2 => isFalse (fun hh => h2 (by cases hh; rfl))

def jsonDecEqFields : (a b : List (String × Json)) → Decidable (a = b)
  | [], [] => isTrue rfl
  | [], _ :: _ => isFalse nofun
  | _ :: _, [] => isFalse nofun
  | (k1, v1) :: as2, (k2, v2) :: bs =>
      match decEq k1 k2, jsonDecEq v1 v2, jsonDecEqFields as2 bs with
      | isTrue h1, isTrue h2, isTrue h3 => isTrue (by rw [h1, h2, h3])
      | isFalse h1, _, _ => isFalse (fun hh => h1 (by cases hh; rfl))
      | _, isFalse h2, _ => isFalse (fun hh => h2 (by cases hh; rfl))
      | _, _, isFalse h3 => isFalse (fun hh => h3 (by cases hh; rfl))

end

instance : DecidableEq Json := jsonDecEq

/-- tools.py line 480: the hint attached to creation-tool failures. -/
def creation_error_hint : String :=
  "Check that all required fields are provided with correct types"

/-- tools.py lines 420-481: the creation impl body runs inside try/except;
a raised exception e becomes the dict with error message and hint.  The
underlying computation is its result or the raised exception message. -/
def creation_impl_wrap (underlying : Except String Json) : Json :=
  match underlying with
  | .ok v => v
  | .error e =>
      .obj [("error", .prim e), ("hint", .prim creation_error_hint)]

/-- tools.py lines 542-556: the action impl body runs inside try/except; a
raised exception e becomes the dict with only the error message. -/
def action_impl_wrap (underlying : Except String Json) : Json :=
  match underlying with
  | .ok v => v
  | .error e => .obj [("error", .prim e)]

/-! ### tools.py create_typed_function: parameter specs and ordering -/

/-- A parameter spec dict as built by _flatten_schema and consumed by
create_typed_function: name, type, required, nullable. -/
structure ParamSpec where
  name : String
  ptype : String
  required : Bool
  nullable : Bool
deriving DecidableEq

/-- tools.py line 64: a parameter is rendered without a default exactly
when it is required and not nullable. -/
def param_is_required (p : ParamSpec) : Bool := p.required && !p.nullable

/-- tools.py line 49: first component of the sort key,
not (required and not nullable); false sorts before true. -/
def param_group (p : ParamSpec) : Bool := !(p.required && !p.nullable)

/-- tools.py lines 66-67: a parameter is rendered with default None
exactly when it is not (required and non-nullable). -/
def param_has_default_none (p : ParamSpec) : Bool := !(p.required && !p.nullable)

/-- The comparison realised by Python sorted with the key
(not (required and not nullable), name): lexicographic on the Bool
group and then the name. -/
def spec_key_le (p q : ParamSpec) : Prop :=
  param_group p < param_group q
  ∨ (param_group p = param_group q ∧ p.name ≤ q.name)

/-- Strict version of spec_key_le, used to show the sort output is
determined by the key when names are distinct. -/
def spec_key_lt (p q : ParamSpec) : Prop :=
  param_group p < param_group q
  ∨ (param_group p = param_group q ∧ p.name < q.name)

instance : DecidableRel spec_key_le := fun p q => by
  unfold spec_key_le
  infer_instance

instance : DecidableRel spec_key_lt := fun p q => by
  unfold spec_key_lt
  infer_instance

instance : IsTotal ParamSpec spec_key_le where
  total p q := by
    rcases lt_trichotomy (param_group p) (param_group q) with h | h | h
    · exact Or.inl (Or.inl h)
    · rcases le_total p.name q.name with hn | hn
      · exact Or.inl (Or.inr ⟨h, hn⟩)
      · exact Or.inr (Or.inr ⟨h.symm, hn⟩)
    · exact Or.inr (Or.inl h)

instance : IsTrans ParamSpec spec_key_le where
  trans p q r hpq hqr := by
    rcases hpq with h1 | ⟨h1, hn1⟩ <;> rcases hqr with h2 | ⟨h2, hn2⟩
    · exact Or.inl (lt_trans h1 h2)
    · exact Or.inl (h2 ▸ h1)
    · exact Or.inl (h1 ▸ h2)
    · exact Or.inr ⟨h1.trans h2, hn1.trans hn2⟩

instance : IsAntisymm ParamSpec spec_key_lt where
  antisymm p q hpq hqp := by
    exfalso
    rcases hpq with h1 | ⟨h1, hn1⟩ <;> rcases hqp with h2 | ⟨h2, hn2⟩
    · exact absurd (lt_trans h1 h2) (lt_irrefl _)
    · exact absurd (h2 ▸ h1) (lt_irrefl _)
    · exact absurd (h1 ▸ h2) (lt_irrefl _)
    · exact absurd (hn1.trans hn2) (lt_irrefl _)

/-- tools.py lines 48-51: sorted(param_specs, key) with the group/name
key.  Python sorted is a stable sort by this key; insertion sort with the
corresponding total preorder is also stable by the same key, so the two
agree on every input. -/
def sorted_param_specs (specs : List ParamSpec) : List ParamSpec :=
  List.insertionSort spec_key_le specs

/-! ### utils.py parse_openapi_path and path classification -/

/-- Python str.split with a one-character separator, realised on the
character list: accumulate the current piece and cut at each separator. -/
def pySplitGo (sep : Char) : List Char → List Char → List (List Char)
  | [], acc => [acc.reverse]
  | c :: cs, acc =>
    if c = sep then acc.reverse :: pySplitGo sep cs []
    else pySplitGo sep cs (c :: acc)

/-- Python s.split(sep) for a one-character separator. -/
def pySplitChar (sep : Char) (s : String) : List String :=
  (pySplitGo sep s.data []).map String.mk

/-- Python str.startswith, realised on the character lists. -/
def listStartsWith : List Char → List Char → Bool
  | [], _ => true
  | _ :: _, [] => false
  | p :: ps, c :: cs => p == c && listStartsWith ps cs

def pyStartsWith (s pre : String) : Bool :=
  listStartsWith pre.data s.data

/-- Python s[n:], realised on the character list. -/
def pyDrop (s : String) (n : ℕ) : String :=
  String.mk (s.data.drop n)

/-- utils.py parse_openapi_path: strip the /npl/{package}/ package prefix
from the path, split the remainder on "/", drop empty and "-" segments,
and classify: no segments gives (none, none); exactly one segment is a
protocol creation (protocol, none); three or more segments are an action
(protocol, last segment); exactly two segments fall through to
(protocol, none). -/
def parse_openapi_path (path package : String) : Option String × Option String :=
  let packagePre := "/npl/" ++ package ++ "/"
  if pyStartsWith path packagePre then
    let afterPre := pyDrop path packagePre.data.length
    let parts := (pySplitChar '/' afterPre).filter
      (fun p => decide (p ≠ "") && decide (p ≠ "-"))
    match parts with
    | [] => (none, none)
    | protocolName :: _ =>
      if parts.length = 1 then (some protocolName, none)
      else if 3 ≤ parts.length then
        (some protocolName, some (parts.getLastD ""))
      else (some protocolName, none)
  else (none, none)

/-- utils.py is_protocol_creation_path. -/
def is_protocol_creation_path (path package : String) : Bool :=
  let pr := parse_openapi_path path package
  pr.1.isSome && pr.2.isNone

/-- utils.py is_action_execution_path. -/
def is_action_execution_path (path package : String) : Bool :=
  let pr := parse_openapi_path path package
  pr.1.isSome && pr.2.isSome

/-- How _generate_tools_for_package (tools.py lines 218-233) treats a path
carrying a POST operation. -/
inductive PathKind where
  | creation
  | action
  | ignored
deriving DecidableEq

/-- tools.py lines 218-233: a creation path yields a creation tool, an
action path yields an action tool, anything else is skipped silently. -/
def classify_post_path (path package : String) : PathKind :=
  if is_protocol_creation_path path package then .creation
  else if is_action_execution_path path package then .action
  else .ignored

/-- Joining segments with a one-character separator, the inverse image of
pySplitChar used to describe well-formed paths and flattened names. -/
def joinChar (sep : Char) : List String → String
  | [] => ""
  | [s] => s
  | s :: rest => s ++ String.mk [sep] ++ joinChar sep rest

/-- A path segment as emitted by the engine: nonempty, not the literal
"-", and free of the path separator. -/
def good_segment (s : String) : Prop :=
  s ≠ "" ∧ s ≠ "-" ∧ ('/' ∉ s.data)

/-! ### tools.py party reassembly in the creation impl -/

/-- Python truthiness of a popped keyword value: absent or None is falsy,
an empty string, list or dict is falsy, everything else is truthy.  Party
parameters are declared as strings, so the string case is the one the
code exercises. -/
def py_truthy : Option Json → Bool
  | none => false
  | some .null => false
  | some (.prim s) => !(s == "")
  | some (.arr es) => !es.isEmpty
  | some (.obj fs) => !fs.isEmpty

/-- tools.py lines 431-436: the claims object stored for one party. -/
def party_claims (orgVal deptVal : Json) : Json :=
  .obj [("claims", .obj [("organization", .arr [orgVal]),
    ("department", .arr [deptVal])])]

/-- tools.py lines 423-436: pop {role}_organization and
{role}_department from kwargs for each declared party in order; a role is
added to the parties dict only when both popped values are truthy; both
keys leave the keyword map unconditionally.  Returns the parties dict and
the remaining keyword map. -/
def build_parties : List String → List (String × Json) →
    List (String × Json) × List (String × Json)
  | [], kwargs => ([], kwargs)
  | party :: rest, kwargs =>
    let orgKey := party ++ "_organization"
    let deptKey := party ++ "_department"
    let orgVal := assocLookup kwargs orgKey
    let kwargs1 := assocErase kwargs orgKey
    let deptVal := assocLookup kwargs1 deptKey
    let kwargs2 := assocErase kwargs1 deptKey
    let restRes := build_parties rest kwargs2
    if py_truthy orgVal && py_truthy deptVal then
      ((party, party_claims (orgVal.getD .null) (deptVal.getD .null))
          :: restRes.1, restRes.2)
    else (restRes.1, restRes.2)

/-- The flattened party parameter names generated for a list of declared
roles, two per role. -/
def party_keys : List String → List String
  | [] => []
  | p :: rest =>
    (p ++ "_organization") :: (p ++ "_department") :: party_keys rest

/-! ### tools.py _flatten_schema and the unflattening in the creation impl -/

/-- A request-body schema node as _flatten_schema sees it after reference
resolution: either a leaf property (a direct primitive, an enum reference
or a simple reference; ptype records the already-mapped Python type
string and nullable its nullable flag), or a reference to an object
schema with its own properties and required set, into which the
flattener recurses. -/
inductive SchemaNode where
  | leaf (ptype : String) (nullable : Bool)
  | nObj (props : List (String × SchemaNode)) (required : List String)

mutual

/-- tools.py _flatten_schema on a schema node: only object schemas have
properties to flatten. -/
def flatten_node : SchemaNode → String → List ParamSpec
  | .leaf _ _, _ => []
  | .nObj props req, pre => flatten_props props req pre

/-- tools.py lines 266-319: iterate the properties in declaration order,
skip the literal "@parties", recurse into referenced object schemas with
the name appended to the prefix followed by an underscore, and emit one
descriptor per leaf whose required flag is
(prop_name in required) and not nullable. -/
def flatten_props : List (String × SchemaNode) → List String → String →
    List ParamSpec
  | [], _, _ => []
  | (n, s) :: rest, req, pre =>
    (if n = "@parties" then []
     else match s with
       | .nObj props2 req2 => flatten_node (.nObj props2 req2) (pre ++ n ++ "_")
       | .leaf ptype nb => [⟨pre ++ n, ptype, decide (n ∈ req) && !nb, nb⟩])
    ++ flatten_props rest req pre

end

/-- Python value is None test. -/
def Json.isNull : Json → Bool
  | .null => true
  | _ => false

/-- tools.py lines 446-451 and 463-468: the nested-dict walk of the
creation impl.  parts[:-1] are walked, creating missing dicts; the last
part is assigned.  Descending into a value that is not a dict raises in
Python (caught by the surrounding try), modelled as none. -/
def insert_walk : List (String × Json) → List String → Json →
    Option (List (String × Json))
  | fields, [], _ => some fields
  | fields, [last], v => some (assocSet fields last v)
  | fields, part :: r2 :: rs, v =>
    match assocLookup fields part with
    | some (.obj sub) =>
        match insert_walk sub (r2 :: rs) v with
        | some sub2 => some (assocSet fields part (.obj sub2))
        | none => none
    | some _ => none
    | none =>
        match insert_walk [] (r2 :: rs) v with
        | some sub2 => some (assocSet fields part (.obj sub2))
        | none => none

/-- tools.py lines 441-452: the first unflattening pass seeds every
nullable field, at the path obtained by splitting its flattened name on
underscores, with kwargs.get(name, None). -/
def prefill_nullable : List ParamSpec → List (String × Json) →
    List (String × Json) → Option (List (String × Json))
  | [], _, data => some data
  | param :: rest, kwargs, data =>
    if param.nullable then
      match insert_walk data (pySplitChar '_' param.name)
          ((assocLookup kwargs param.name).getD .null) with
      | some data2 => prefill_nullable rest kwargs data2
      | none => none
    else prefill_nullable rest kwargs data

/-- tools.py lines 454-469: the second unflattening pass inserts every
non-None keyword value at the path obtained by splitting its key on
underscores; None values are skipped in both branches. -/
def insert_kwargs : List (String × Json) → List (String × Json) →
    Option (List (String × Json))
  | [], data => some data
  | (key, value) :: rest, data =>
    if value.isNull then insert_kwargs rest data
    else
      match insert_walk data (pySplitChar '_' key) value with
      | some data2 => insert_kwargs rest data2
      | none => none

/-- tools.py lines 438-469: the whole unflattening step of the creation
impl, first pass then second pass, starting from the empty dict. -/
def unflatten_data (params : List ParamSpec)
    (kwargs : List (String × Json)) : Option (List (String × Json)) :=
  match prefill_nullable params kwargs [] with
  | some d0 => insert_kwargs kwargs d0
  | none => none

mutual

/-- Structural equality of values up to reordering of dict keys: both
dicts have the same number of fields and every field of the first is
present in the second with an equivalent value. -/
def jEquiv : Json → Json → Bool
  | .null, .null => true
  | .prim a, .prim b => a == b
  | .arr as, .arr bs => jEquivList as bs
  | .obj fs, .obj gs => (fs.length == gs.length) && jEquivFields fs gs
  | _, _ => false

def jEquivFields : List (String × Json) → List (String × Json) → Bool
  | [], _ => true
  | (k, v) :: rest, gs =>
    (match assocLookup gs k with
     | some w => jEquiv v w
     | none => false) && jEquivFields rest gs

def jEquivList : List Json → List Json → Bool
  | [], [] => true
  | a :: as2, b :: bs => jEquiv a b && jEquivList as2 bs
  | _, _ => false

end

/-- Keys of a dict-shaped association list are pairwise distinct. -/
def nodup_keys : List String → Bool
  | [] => true
  | k :: rest => !rest.contains k && nodup_keys rest

mutual

/-- A well-formed Python value: every nested dict has distinct keys. -/
def json_wf : Json → Bool
  | .null => true
  | .prim _ => true
  | .arr es => json_wf_list es
  | .obj fs => nodup_keys (fs.map Prod.fst) && json_wf_fields fs

def json_wf_fields : List (String × Json) → Bool
  | [] => true
  | (_, v) :: rest => json_wf v && json_wf_fields rest

def json_wf_list : List Json → Bool
  | [] => true
  | v :: rest => json_wf v && json_wf_list rest

end

mutual

/-- A data object fully populated for a schema: same field names in the
same order, every leaf holds a non-null well-formed value, every nested
object recursively conforms. -/
def conforms : SchemaNode → Json → Bool
  | .leaf _ _, v => !v.isNull && json_wf v
  | .nObj props _, .obj fields => conforms_fields props fields
  | .nObj _ _, _ => false

def conforms_fields : List (String × SchemaNode) → List (String × Json) → Bool
  | [], [] => true
  | (n, s) :: ps, (m, v) :: fs =>
    (n == m) && conforms s v && conforms_fields ps fs
  | _, _ => false

end

/-- A property name the flattening scheme can invert: nonempty, not the
reserved "@parties", and containing no underscore. -/
def good_name (n : String) : Bool :=
  !(n == "") && !(n == "@parties") && !(n.data.contains '_')

mutual

/-- A schema on which the flatten/unflatten round trip is claimed: all
property names invertible and distinct per level, and every object node
has at least one property. -/
def good_schema : SchemaNode → Bool
  | .leaf _ _ => true
  | .nObj props _ => !props.isEmpty && good_props props

def good_props : List (String × SchemaNode) → Bool
  | [] => true
  | (n, s) :: rest =>
    good_name n && !((rest.map Prod.fst).contains n) && good_schema s
      && good_props rest

end

mutual

/-- The leaf paths of a conforming value at a schema node with their
values: only an object node paired with a dict value contributes. -/
def leaf_paths_node : SchemaNode → Json → List (List String × Json)
  | .nObj props _, .obj fields => leaf_paths_entries props fields
  | _, _ => []

/-- The leaf paths of a conforming object together with their values, in
flatten order: a nested object contributes its leaf paths prefixed with
its name, a leaf contributes its own one-segment path and value. -/
def leaf_paths_entries : List (String × SchemaNode) → List (String × Json) →
    List (List String × Json)
  | (n, s) :: ps, (_, v) :: fs =>
    (match s with
     | .nObj _ _ => (leaf_paths_node s v).map (fun pw => (n :: pw.1, pw.2))
     | .leaf _ _ => [([n], v)])
    ++ leaf_paths_entries ps fs
  | _, _ => []

end

/-- The fully-populated argument map for a schema and a conforming data
object: one entry per flattened parameter name, carrying the value the
data object holds at the corresponding nested path. -/
def flatten_args (props : List (String × SchemaNode))
    (fields : List (String × Json)) : List (String × Json) :=
  (leaf_paths_entries props fields).map
    (fun pw => (joinChar '_' pw.1, pw.2))

/-! ### Path lookup and the unflattening invariant -/

/-- Follow a nonempty path through a schema property list: the node named
by the last segment after walking object nodes for the earlier ones. -/
def get_node : List (String × SchemaNode) → List String → Option SchemaNode
  | _, [] => none
  | props, k :: rest =>
    match assocLookup props k with
    | none => none
    | some s =>
      match rest with
      | [] => some s
      | _ :: _ =>
        match s with
        | .nObj props2 _ => get_node props2 rest
        | .leaf _ _ => none

/-- Follow a nonempty path through a dict field list: the value at the
last segment after walking dict values for the earlier ones. -/
def get_value : List (String × Json) → List String → Option Json
  | _, [] => none
  | fields, k :: rest =>
    match assocLookup fields k with
    | none => none
    | some v =>
      match rest with
      | [] => some v
      | _ :: _ =>
        match v with
        | .obj fields2 => get_value fields2 rest
        | _ => none

def is_leaf_node : Option SchemaNode → Bool
  | some (.leaf _ _) => true
  | _ => false

/-- An insertion the unflattening step may perform: the path leads to a
leaf of the schema and carries the value the original object holds
there. -/
def good_entry (props : List (String × SchemaNode))
    (fields : List (String × Json)) (e : List String × Json) : Prop :=
  is_leaf_node (get_node props e.1) = true ∧ get_value fields e.1 = some e.2

/-- Sequential execution of insert_walk over a list of path/value
pairs. -/
def run_inserts : List (List String × Json) → List (String × Json) →
    Option (List (String × Json))
  | [], out => some out
  | (p, v) :: rest, out =>
    match insert_walk out p v with
    | some out2 => run_inserts rest out2
    | none => none

mutual

/-- The per-value invariant maintained by the unflattening inserts: at a
leaf of the schema the built value is exactly the original value; at an
object node the built value is a dict with distinct keys whose fields
satisfy the per-field invariant. -/
def SubVal : Json → SchemaNode → Json → Prop
  | w, .leaf _ _, ov => w = ov
  | .obj out2, .nObj props2 _, .obj fields2 =>
      nodup_keys (out2.map Prod.fst) = true ∧ SubFields out2 props2 fields2
  | _, _, _ => False

/-- Every key of the object under construction names a schema property
and an original field, and its value satisfies the per-value invariant
against them. -/
def SubFields : List (String × Json) → List (String × SchemaNode) →
    List (String × Json) → Prop
  | [], _, _ => True
  | (k, w) :: rest, props, fields =>
      (∃ s ov, assocLookup props k = some s ∧ assocLookup fields k = some ov
        ∧ SubVal w s ov)
      ∧ SubFields rest props fields

end

/-- The object under construction has distinct keys and all its fields
satisfy the invariant. -/
def SubObj (out : List (String × Json)) (props : List (String × SchemaNode))
    (fields : List (String × Json)) : Prop :=
  nodup_keys (out.map Prod.fst) = true ∧ SubFields out props fields

/-- The path/value pairs the nullable prefill pass inserts. -/
def prefill_entries (params : List ParamSpec)
    (kwargs : List (String × Json)) : List (List String × Json) :=
  params.filterMap (fun param =>
    if param.nullable then
      some (pySplitChar '_' param.name,
        (assocLookup kwargs param.name).getD .null)
    else none)

/-- The path/value pairs the keyword pass inserts. -/
def kwargs_entries (kwargs : List (String × Json)) :
    List (List String × Json) :=
  kwargs.filterMap (fun kv =>
    if kv.2.isNull then none else some (pySplitChar '_' kv.1, kv.2))

def get_node_of : SchemaNode → List String → Option SchemaNode
  | .nObj props _, p => get_node props p
  | .leaf _ _, _ => none

def get_value_of : Json → List String → Option Json
  | .obj fields, p => get_value fields p
  | _, _ => none

/-! ### Theorems -/

theorem assocLookup_erase_self {β : Type} (l : List (String × β)) (key : String) :
    assocLookup (assocErase l key) key = none := by
  induction l with
  | nil => rfl
  | cons hd tl ih =>
    obtain ⟨k, v⟩ := hd
    by_cases h : k = key
    · simpa [assocErase, h] using ih
    · simpa [assocErase, assocLookup, h] using ih

theorem assocLookup_erase_ne {β : Type} (l : List (String × β)) (k k2 : String)
    (h : k2 ≠ k) : assocLookup (assocErase l k) k2 = assocLookup l k2 := by
  induction l with
  | nil => rfl
  | cons hd tl ih =>
    obtain ⟨k0, v⟩ := hd
    by_cases h0 : k0 = k
    · subst h0
      simp [assocErase, assocLookup, Ne.symm h, ih]
    · by_cases h2 : k0 = k2 <;> simp [assocErase, assocLookup, h0, h2, h, ih]

/-! ### Theorems for claims C5, C6, C7 -/

/-- C6: for every attempt number n, the computed backoff delay equals
min(initialDelay * base^n, maxDelay); ignoring jitter, the delays over
successive attempts are non-decreasing and never exceed maxDelay, and the
added jitter lies in the interval from 0 to 0.1 * delay.  The hypotheses
state the configuration actually used by the code (client.py hardcodes
initial 1.0, base 2.0, cap 60.0, which satisfy them, as do the retry.py
defaults) and that the uniform sample u lies in the unit interval. -/
theorem backoff_delay_properties
    (initial_delay max_delay exponential_base u : ℚ) (n k : ℕ)
    (hi : 0 ≤ initial_delay) (hb : 1 ≤ exponential_base)
    (hm : 0 ≤ max_delay) (hu0 : 0 ≤ u) (hu1 : u ≤ 1) (hnk : n ≤ k) :
    client_backoff_delay n = retry_backoff_delay 1 60 2 n
    ∧ retry_backoff_delay initial_delay max_delay exponential_base n =
        min (initial_delay * exponential_base ^ n) max_delay
    ∧ retry_backoff_delay initial_delay max_delay exponential_base n ≤
        retry_backoff_delay initial_delay max_delay exponential_base k
    ∧ retry_backoff_delay initial_delay max_delay exponential_base n ≤ max_delay
    ∧ 0 ≤ backoff_jitter
        (retry_backoff_delay initial_delay max_delay exponential_base n) u
    ∧ backoff_jitter
        (retry_backoff_delay initial_delay max_delay exponential_base n) u ≤
        (1 / 10) * retry_backoff_delay initial_delay max_delay exponential_base n := by
  have hb0 : (0 : ℚ) ≤ exponential_base := le_trans zero_le_one hb
  have hdn : 0 ≤ retry_backoff_delay initial_delay max_delay exponential_base n :=
    le_min (mul_nonneg hi (pow_nonneg hb0 n)) hm
  refine ⟨rfl, rfl, ?_, min_le_right _ _, ?_, ?_⟩
  · exact min_le_min
      (mul_le_mul_of_nonneg_left (pow_le_pow_right₀ hb hnk) hi) le_rfl
  · exact mul_nonneg hu0 (by linarith)
  · unfold backoff_jitter
    nlinarith

/-- Witness for backoff_delay_properties at the configuration used by
client.py, with sample u = 1/2 and attempts 2 and 3. -/
theorem backoff_delay_properties_witness :
    client_backoff_delay 2 = retry_backoff_delay 1 60 2 2
    ∧ retry_backoff_delay 1 60 2 2 = min ((1 : ℚ) * 2 ^ 2) 60
    ∧ retry_backoff_delay 1 60 2 2 ≤ retry_backoff_delay 1 60 2 3
    ∧ retry_backoff_delay 1 60 2 2 ≤ 60
    ∧ 0 ≤ backoff_jitter (retry_backoff_delay 1 60 2 2) (1 / 2)
    ∧ backoff_jitter (retry_backoff_delay 1 60 2 2) (1 / 2) ≤
        (1 / 10) * retry_backoff_delay 1 60 2 2 :=
  backoff_delay_properties 1 60 2 (1 / 2) 2 3 (by norm_num) (by norm_num)
    (by norm_num) (by norm_num) (by norm_num) (by norm_num)

/-- C7: a Cache.get issued at a time t strictly greater than the entry
creation time plus its TTL returns absent and evicts the entry; a get at
or before that instant returns the stored value and leaves the cache
unchanged. -/
theorem cache_ttl_get {α : Type} (c : Cache α) (key : String) (value : α)
    (createdAt ttl t : ℚ)
    (hfound : assocLookup c.cache key = some ⟨value, createdAt, ttl⟩) :
    (createdAt + ttl < t →
      (c.get t key).1 = none
      ∧ assocLookup ((c.get t key).2).cache key = none)
    ∧ (t ≤ createdAt + ttl →
      (c.get t key).1 = some value ∧ (c.get t key).2 = c) := by
  constructor
  · intro hlt
    have hexp : CachedItem.is_expired ⟨value, createdAt, ttl⟩ t = true := by
      simp only [CachedItem.is_expired, decide_eq_true_eq]
      linarith
    constructor <;>
      simp [Cache.get, hfound, hexp, assocLookup_erase_self]
  · intro hle
    have hexp : CachedItem.is_expired ⟨value, createdAt, ttl⟩ t = false := by
      simp only [CachedItem.is_expired, decide_eq_false_iff_not, not_lt]
      linarith
    constructor <;> simp [Cache.get, hfound, hexp]

/-- Witness for cache_ttl_get: an entry stored at time 0 with TTL 300 is
present at t = 300 and gone (and evicted) at t = 301. -/
theorem cache_ttl_get_witness :
    ((Cache.get (⟨[("k", ⟨7, 0, 300⟩)], 300⟩ : Cache ℕ) 301 "k").1 = none
      ∧ assocLookup ((Cache.get (⟨[("k", ⟨7, 0, 300⟩)], 300⟩ : Cache ℕ)
          301 "k").2).cache "k" = none)
    ∧ ((Cache.get (⟨[("k", ⟨7, 0, 300⟩)], 300⟩ : Cache ℕ) 300 "k").1 = some 7
      ∧ (Cache.get (⟨[("k", ⟨7, 0, 300⟩)], 300⟩ : Cache ℕ) 300 "k").2 =
          ⟨[("k", ⟨7, 0, 300⟩)], 300⟩) := by
  constructor
  · exact (cache_ttl_get (⟨[("k", ⟨7, 0, 300⟩)], 300⟩ : Cache ℕ)
      "k" 7 0 300 301 rfl).1 (by norm_num)
  · exact (cache_ttl_get (⟨[("k", ⟨7, 0, 300⟩)], 300⟩ : Cache ℕ)
      "k" 7 0 300 300 rfl).2 (by norm_num)

/-- C5: generate_tools over per-package discovery results skips failing
packages, raises ToolDiscoveryError exactly when zero tools were produced
across all packages, and otherwise returns exactly the tools of the
succeeding packages in order. -/
theorem discovery_partial_failure {α : Type}
    (results : List (Except String (List α))) :
    ((∃ e, generate_tools results = .error e) ↔ succeeding_tools results = [])
    ∧ (succeeding_tools results ≠ [] →
        generate_tools results = .ok (succeeding_tools results)) := by
  by_cases h : succeeding_tools results = []
  · refine ⟨⟨fun _ => h, fun _ => ⟨"No tools generated from any package", ?_⟩⟩,
      fun hne => absurd h hne⟩
    simp [generate_tools, h]
  · have hne : (succeeding_tools results).isEmpty = false := by
      simpa [List.isEmpty_iff] using h
    refine ⟨⟨fun he => ?_, fun hh => absurd hh h⟩, fun _ => ?_⟩
    · obtain ⟨e, he⟩ := he
      simp [generate_tools, hne] at he
    · simp [generate_tools, hne]

/-- Witness for discovery_partial_failure: three packages of which the
second fails still yield the tools of the first and third. -/
theorem discovery_partial_failure_witness :
    generate_tools [Except.ok [1], Except.error "boom", Except.ok [2, 3]] =
      Except.ok ([1, 2, 3] : List ℕ) := by
  exact (discovery_partial_failure
    [Except.ok [1], Except.error "boom", Except.ok [2, 3]]).2 (by decide)

/-! ### Theorems for claims C1 and C9 -/

theorem num_attempts_append (a b : List ReqEvent) :
    num_attempts (a ++ b) = num_attempts a + num_attempts b := by
  simp [num_attempts, List.filter_append]

theorem filter_attempts_refresh_step (cb : Option (ℕ → String)) (attempt : ℕ)
    (token : String) (cbCalls : ℕ) :
    List.filter isAttemptStart (refresh_step cb attempt token cbCalls).1 = [] := by
  cases cb with
  | none => rfl
  | some f =>
    by_cases h : 0 < attempt <;> simp [refresh_step, h, isAttemptStart]

theorem num_attempts_step (pre : List ReqEvent) (a : ℕ) (tok : String)
    (B : List ReqEvent) (hpre : List.filter isAttemptStart pre = []) :
    num_attempts (pre ++ ReqEvent.attemptStart a tok :: B) =
      num_attempts B + 1 := by
  simp [num_attempts, List.filter_append, hpre, List.filter_cons, isAttemptStart,
    Nat.add_comm]

theorem retryable_status_ne_401 (code : ℕ)
    (h : is_retryable_status_code code = true) : code ≠ 401 := by
  intro hc
  subst hc
  simp [is_retryable_status_code] at h

theorem retryable_status_not_ok (code : ℕ)
    (h : is_retryable_status_code code = true) : response_ok code = false := by
  simp only [is_retryable_status_code, Bool.or_eq_true, decide_eq_true_eq,
    beq_iff_eq] at h
  rcases h with h | h
  · simp only [response_ok, decide_eq_false_iff_not, not_lt]
    omega
  · subst h
    rfl

theorem handle_response_error_isTyped (code : ℕ) :
    (handle_response_error code).isTyped = true := by
  unfold handle_response_error
  split
  · rfl
  · split <;> rfl

/-- Core induction for the retry bound: with a permanently failing
transport, a run of the attempt loop starting at any attempt with the
matching fuel performs exactly fuel attempts and ends in a typed error. -/
theorem make_request_go_permfail (N : ℕ) (transport : ℕ → HttpOutcome)
    (cb : Option (ℕ → String))
    (h : ∀ n, permanently_failing (transport n)) :
    ∀ fuel attempt token calls, attempt + fuel = N + 1 → attempt ≤ N →
      num_attempts (make_request_go N transport cb attempt fuel token calls).events
        = fuel
      ∧ ∃ e,
        (make_request_go N transport cb attempt fuel token calls).outcome =
          .error e ∧ e.isTyped = true := by
  intro fuel
  induction fuel with
  | zero =>
    intro attempt token calls hsum hle
    omega
  | succ f ih =>
    intro attempt token calls hsum hle
    have hpre := filter_attempts_refresh_step cb attempt token calls
    rcases h attempt with hnet | ⟨code, hcode, hret⟩
    · -- a retryable network-level failure on this attempt
      by_cases hlt : attempt < N
      · have hrec := ih (attempt + 1)
          (refresh_step cb attempt token calls).2.1
          (refresh_step cb attempt token calls).2.2
          (by omega) (by omega)
        simp only [make_request_go, hnet, List.append_assoc,
          List.singleton_append]
        rw [if_pos (show attempt < N ∧ True from ⟨hlt, trivial⟩)]
        exact ⟨by rw [num_attempts_step _ _ _ _ hpre, hrec.1], hrec.2⟩
      · simp only [make_request_go, hnet, List.append_assoc,
          List.singleton_append]
        rw [if_neg (show ¬(attempt < N ∧ True) from fun hh => hlt hh.1),
          if_pos (not_lt.mp hlt)]
        refine ⟨?_, .maxRetriesExceeded, rfl, rfl⟩
        rw [num_attempts_step _ _ _ _ hpre]
        simp [num_attempts]
        omega
    · -- a response with a retryable status code on this attempt
      have h401 : code ≠ 401 := retryable_status_ne_401 code hret
      have hok : ¬(response_ok code = true) := by
        simp [retryable_status_not_ok code hret]
      have hc1 : ¬(code = 401 ∧ cb.isSome = true ∧ attempt < N) :=
        fun hh => h401 hh.1
      by_cases hlt : attempt < N
      · have hrec := ih (attempt + 1)
          (refresh_step cb attempt token calls).2.1
          (refresh_step cb attempt token calls).2.2
          (by omega) (by omega)
        simp only [make_request_go, hcode, List.append_assoc,
          List.singleton_append]
        rw [if_neg hc1, if_neg hok,
          if_pos (show is_retryable_status_code code = true ∧ attempt < N from
            ⟨hret, hlt⟩)]
        exact ⟨by rw [num_attempts_step _ _ _ _ hpre, hrec.1], hrec.2⟩
      · simp only [make_request_go, hcode, List.append_assoc,
          List.singleton_append]
        rw [if_neg hc1, if_neg hok, if_neg
          (show ¬(is_retryable_status_code code = true ∧ attempt < N) from
            fun hh => hlt hh.2)]
        refine ⟨?_, handle_response_error code, rfl,
          handle_response_error_isTyped code⟩
        rw [num_attempts_step _ _ _ _ hpre]
        simp [num_attempts]
        omega

/-- C1: with maxRetries = N and a transport that fails permanently (every
attempt is a retryable network failure or a retryable status code),
_make_request performs exactly N + 1 attempts and then raises a terminal
typed error, for any callback configuration and initial token. -/
theorem retry_bound (N : ℕ) (transport : ℕ → HttpOutcome)
    (cb : Option (ℕ → String)) (token0 : String)
    (h : ∀ n, permanently_failing (transport n)) :
    num_attempts (make_request N transport cb token0).events = N + 1
    ∧ ∃ e, (make_request N transport cb token0).outcome = .error e
        ∧ e.isTyped = true :=
  make_request_go_permfail N transport cb h (N + 1) 0 token0 0 (by omega)
    (by omega)

/-- Witness for retry_bound: maxRetries = 2 with a transport that always
raises a retryable connection error performs exactly 3 attempts. -/
theorem retry_bound_witness :
    num_attempts (make_request 2 (fun _ => .netErr true) none "tok").events = 3
    ∧ ∃ e, (make_request 2 (fun _ => .netErr true) none "tok").outcome =
        .error e ∧ e.isTyped = true :=
  retry_bound 2 (fun _ => .netErr true) none "tok" (fun _ => Or.inl rfl)

theorem refresh_precedes_nil : refresh_precedes [] := by
  intro i n tok hget
  simp at hget

theorem refresh_precedes_cons_refresh (tk : String) (T : List ReqEvent)
    (hT : refresh_precedes T)
    (hhead : ∀ n tok, T[0]? ≠ some (ReqEvent.attemptStart n tok)) :
    refresh_precedes (ReqEvent.tokenRefresh tk :: T) := by
  intro i n tok hget hn
  match i with
  | 0 => simp at hget
  | k + 1 =>
    simp only [List.getElem?_cons_succ] at hget
    match k, hget with
    | 0, hget => exact absurd hget (hhead n tok)
    | j + 1, hget =>
      obtain ⟨j2, hj2, href⟩ := hT (j + 1) n tok hget hn
      exact ⟨j2 + 1, by omega, by simpa using href⟩

theorem refresh_precedes_cons_pair (tk : String) (a : ℕ) (T : List ReqEvent)
    (hT : refresh_precedes T)
    (hhead : ∀ n tok, T[0]? ≠ some (ReqEvent.attemptStart n tok)) :
    refresh_precedes
      (ReqEvent.tokenRefresh tk :: ReqEvent.attemptStart a tk :: T) := by
  intro i n tok hget hn
  match i with
  | 0 => simp at hget
  | 1 =>
    simp only [List.getElem?_cons_succ, List.getElem?_cons_zero,
      Option.some.injEq, ReqEvent.attemptStart.injEq] at hget
    exact ⟨0, rfl, by simp [hget.2]⟩
  | k + 2 =>
    simp only [List.getElem?_cons_succ] at hget
    match k, hget with
    | 0, hget => exact absurd hget (hhead n tok)
    | j + 1, hget =>
      obtain ⟨j2, hj2, href⟩ := hT (j + 1) n tok hget hn
      exact ⟨j2 + 2, by omega, by simpa using href⟩

theorem refresh_precedes_cons_start0 (tok0 : String) (T : List ReqEvent)
    (hT : refresh_precedes T)
    (hhead : ∀ n tok, T[0]? ≠ some (ReqEvent.attemptStart n tok)) :
    refresh_precedes (ReqEvent.attemptStart 0 tok0 :: T) := by
  intro i n tok hget hn
  match i with
  | 0 =>
    simp only [List.getElem?_cons_zero, Option.some.injEq,
      ReqEvent.attemptStart.injEq] at hget
    exact absurd hget.1.symm hn
  | k + 1 =>
    simp only [List.getElem?_cons_succ] at hget
    match k, hget with
    | 0, hget => exact absurd hget (hhead n tok)
    | j + 1, hget =>
      obtain ⟨j2, hj2, href⟩ := hT (j + 1) n tok hget hn
      exact ⟨j2 + 1, by omega, by simpa using href⟩

/-- Core induction for C9: with a configured refresh callback, every run
of the attempt loop produces a trace in which each retry attempt is
immediately preceded by a refresh of the token it carries, and a run
started at a positive attempt number begins with a refresh event. -/
theorem go_refresh_precedes (N : ℕ) (transport : ℕ → HttpOutcome)
    (f : ℕ → String) :
    ∀ fuel attempt token calls,
      refresh_precedes
        (make_request_go N transport (some f) attempt fuel token calls).events
      ∧ (0 < attempt → ∀ n tok,
          (make_request_go N transport (some f) attempt fuel token
            calls).events[0]? ≠ some (ReqEvent.attemptStart n tok)) := by
  intro fuel
  induction fuel with
  | zero =>
    intro attempt token calls
    exact ⟨refresh_precedes_nil, fun _ n tok => by simp [make_request_go]⟩
  | succ fl ih =>
    intro attempt token calls
    by_cases ha : 0 < attempt
    · have hr : refresh_step (some f) attempt token calls =
          ([ReqEvent.tokenRefresh (f calls)], f calls, calls + 1) := by
        simp [refresh_step, ha]
      cases htr : transport attempt with
      | resp code =>
        simp only [make_request_go, hr, htr, List.cons_append, List.nil_append,
          List.singleton_append]
        by_cases hc1 : code = 401 ∧ (some f).isSome = true ∧ attempt < N
        · rw [if_pos hc1]
          have hrec := ih (attempt + 1) (f (calls + 1)) (calls + 1 + 1)
          refine ⟨refresh_precedes_cons_pair _ _ _
            (refresh_precedes_cons_refresh _ _ hrec.1
              (hrec.2 (by omega))) (by simp), fun _ n tok => by simp⟩
        · rw [if_neg hc1]
          by_cases hok : response_ok code = true
          · rw [if_pos hok]
            refine ⟨refresh_precedes_cons_pair _ _ _
              refresh_precedes_nil (by simp), fun _ n tok => by simp⟩
          · rw [if_neg hok]
            by_cases hc3 : is_retryable_status_code code = true ∧ attempt < N
            · rw [if_pos hc3]
              have hrec := ih (attempt + 1) (f calls) (calls + 1)
              refine ⟨refresh_precedes_cons_pair _ _ _ hrec.1
                (hrec.2 (by omega)), fun _ n tok => by simp⟩
            · rw [if_neg hc3]
              refine ⟨refresh_precedes_cons_pair _ _ _
                refresh_precedes_nil (by simp), fun _ n tok => by simp⟩
      | netErr r =>
        simp only [make_request_go, hr, htr, List.cons_append, List.nil_append,
          List.singleton_append]
        by_cases hc : attempt < N ∧ r = true
        · rw [if_pos hc]
          have hrec := ih (attempt + 1) (f calls) (calls + 1)
          refine ⟨refresh_precedes_cons_pair _ _ _ hrec.1
            (hrec.2 (by omega)), fun _ n tok => by simp⟩
        · rw [if_neg hc]
          by_cases hd : N ≤ attempt
          · rw [if_pos hd]
            refine ⟨refresh_precedes_cons_pair _ _ _
              refresh_precedes_nil (by simp), fun _ n tok => by simp⟩
          · rw [if_neg hd]
            refine ⟨refresh_precedes_cons_pair _ _ _
              refresh_precedes_nil (by simp), fun _ n tok => by simp⟩
    · have ha0 : attempt = 0 := by omega
      subst ha0
      have hr : refresh_step (some f) 0 token calls = ([], token, calls) := by
        simp [refresh_step]
      cases htr : transport 0 with
      | resp code =>
        simp only [make_request_go, hr, htr, List.cons_append, List.nil_append,
          List.singleton_append]
        by_cases hc1 : code = 401 ∧ (some f).isSome = true ∧ 0 < N
        · rw [if_pos hc1]
          have hrec := ih 1 (f calls) (calls + 1)
          refine ⟨refresh_precedes_cons_start0 _ _
            (refresh_precedes_cons_refresh _ _ hrec.1
              (hrec.2 (by omega))) (by simp), fun h n tok => absurd h (by omega)⟩
        · rw [if_neg hc1]
          by_cases hok : response_ok code = true
          · rw [if_pos hok]
            refine ⟨refresh_precedes_cons_start0 _ _
              refresh_precedes_nil (by simp), fun h n tok => absurd h (by omega)⟩
          · rw [if_neg hok]
            by_cases hc3 : is_retryable_status_code code = true ∧ 0 < N
            · rw [if_pos hc3]
              have hrec := ih 1 token calls
              refine ⟨refresh_precedes_cons_start0 _ _ hrec.1
                (hrec.2 (by omega)), fun h n tok => absurd h (by omega)⟩
            · rw [if_neg hc3]
              refine ⟨refresh_precedes_cons_start0 _ _
                refresh_precedes_nil (by simp), fun h n tok => absurd h (by omega)⟩
      | netErr r =>
        simp only [make_request_go, hr, htr, List.cons_append, List.nil_append,
          List.singleton_append]
        by_cases hc : 0 < N ∧ r = true
        · rw [if_pos hc]
          have hrec := ih 1 token calls
          refine ⟨refresh_precedes_cons_start0 _ _ hrec.1
            (hrec.2 (by omega)), fun h n tok => absurd h (by omega)⟩
        · rw [if_neg hc]
          by_cases hd : N ≤ 0
          · rw [if_pos hd]
            refine ⟨refresh_precedes_cons_start0 _ _
              refresh_precedes_nil (by simp), fun h n tok => absurd h (by omega)⟩
          · rw [if_neg hd]
            refine ⟨refresh_precedes_cons_start0 _ _
              refresh_precedes_nil (by simp), fun h n tok => absurd h (by omega)⟩

/-- C9: whenever a token-refresh callback is configured, every retry
attempt (attempt number greater than 0) of a _make_request run is
immediately preceded in the trace by a refresh callback invocation whose
returned token is exactly the token the re-issued request carries; this
holds for every transport behaviour, hence regardless of whether the
previous attempt failed with a 401, a retryable 5xx, or a network
error. -/
theorem token_refresh_on_every_retry (N : ℕ) (transport : ℕ → HttpOutcome)
    (f : ℕ → String) (token0 : String) :
    ∀ i n tok,
      (make_request N transport (some f) token0).events[i]? =
        some (ReqEvent.attemptStart n tok) → n ≠ 0 →
      ∃ j, i = j + 1 ∧
        (make_request N transport (some f) token0).events[j]? =
          some (ReqEvent.tokenRefresh tok) :=
  (go_refresh_precedes N transport f (N + 1) 0 token0 0).1

/-- Witness for token_refresh_on_every_retry: one permanently failing
transport with maxRetries = 1; the second attempt at trace index 2
carries the refreshed token and index 1 is that refresh. -/
theorem token_refresh_on_every_retry_witness :
    ∃ j, 2 = j + 1 ∧
      (make_request 1 (fun _ => .netErr true) (some fun _ => "T1")
        "T0").events[j]? = some (ReqEvent.tokenRefresh "T1") :=
  token_refresh_on_every_retry 1 (fun _ => .netErr true) (fun _ => "T1") "T0"
    2 1 "T1" rfl (by decide)

/-! ### Theorems for claim C4 -/

/-- Counterexample to C4 as stated: an exception raised inside an
action-execution tool is caught and wrapped, but the wrapped result has
no hint field, only the error message, so not every synthesized tool
returns a result containing both an error message and a hint. -/
theorem tool_invoke_hint_cex :
    action_impl_wrap (.error "boom") = Json.obj [("error", .prim "boom")]
    ∧ assocLookup (action_impl_wrap (.error "boom")).fields "error" =
        some (.prim "boom")
    ∧ assocLookup (action_impl_wrap (.error "boom")).fields "hint" = none :=
  ⟨rfl, rfl, rfl⟩

/-- C4 amended: no tool implementation propagates an exception; a
creation tool maps any exception to a dict carrying the error message and
the generic hint, while an action-execution tool maps any exception to a
dict carrying the error message only (no hint field). -/
theorem tool_invoke_error_wrapping (e : String) (v : Json) :
    creation_impl_wrap (.ok v) = v
    ∧ action_impl_wrap (.ok v) = v
    ∧ creation_impl_wrap (.error e) =
        Json.obj [("error", .prim e), ("hint", .prim creation_error_hint)]
    ∧ assocLookup (creation_impl_wrap (.error e)).fields "error" =
        some (.prim e)
    ∧ assocLookup (creation_impl_wrap (.error e)).fields "hint" =
        some (.prim creation_error_hint)
    ∧ action_impl_wrap (.error e) = Json.obj [("error", .prim e)]
    ∧ assocLookup (action_impl_wrap (.error e)).fields "error" =
        some (.prim e)
    ∧ assocLookup (action_impl_wrap (.error e)).fields "hint" = none :=
  ⟨rfl, rfl, rfl, by simp [creation_impl_wrap, Json.fields, assocLookup],
    by simp [creation_impl_wrap, Json.fields, assocLookup], rfl,
    by simp [action_impl_wrap, Json.fields, assocLookup],
    by simp [action_impl_wrap, Json.fields, assocLookup]⟩

theorem sorted_param_specs_sorted (l : List ParamSpec) :
    List.Sorted spec_key_le (sorted_param_specs l) :=
  List.sorted_insertionSort spec_key_le l

theorem sorted_param_specs_perm (l : List ParamSpec) :
    List.Perm (sorted_param_specs l) l :=
  List.perm_insertionSort spec_key_le l

theorem sorted_of_le_of_distinct_names (s : List ParamSpec)
    (hs : List.Sorted spec_key_le s)
    (hn : (s.map ParamSpec.name).Nodup) :
    List.Sorted spec_key_lt s := by
  have hpn : s.Pairwise (fun a b => a.name ≠ b.name) := by
    exact List.pairwise_map.mp hn
  refine (hs.and hpn).imp ?_
  rintro a b ⟨hle, hne⟩
  rcases hle with h | ⟨h, hn2⟩
  · exact Or.inl h
  · exact Or.inr ⟨h, lt_of_le_of_ne hn2 hne⟩

/-- C3: required-and-nullable parameters are synthesized as optional with
default None; required non-nullable ones carry no default and are ordered
before every optional or nullable one; within a group ties are broken
alphabetically by name; and with distinct names the sorted order is a
function of the multiset of descriptors only. -/
theorem required_nullable_policy :
    (∀ p : ParamSpec, p.required = true → p.nullable = true →
      param_has_default_none p = true)
    ∧ (∀ p : ParamSpec, p.required = true → p.nullable = false →
      param_has_default_none p = false ∧ param_is_required p = true)
    ∧ (∀ (l : List ParamSpec) (i j : ℕ) (p q : ParamSpec), i < j →
        (sorted_param_specs l)[i]? = some p →
        (sorted_param_specs l)[j]? = some q →
        (param_is_required q = true → param_is_required p = true)
        ∧ (param_group p = param_group q → p.name ≤ q.name))
    ∧ (∀ l₁ l₂ : List ParamSpec, List.Perm l₁ l₂ →
        (l₁.map ParamSpec.name).Nodup →
        sorted_param_specs l₁ = sorted_param_specs l₂) := by
  refine ⟨?_, ?_, ?_, ?_⟩
  · intro p hr hn
    simp [param_has_default_none, hr, hn]
  · intro p hr hn
    simp [param_has_default_none, param_is_required, hr, hn]
  · intro l i j p q hij hp hq
    obtain ⟨hjlen, hqe⟩ := List.getElem?_eq_some.mp hq
    obtain ⟨hilen, hpe⟩ := List.getElem?_eq_some.mp hp
    have hrel : spec_key_le p q := by
      have := List.pairwise_iff_getElem.mp (sorted_param_specs_sorted l)
        i j hilen hjlen hij
      rwa [hpe, hqe] at this
    constructor
    · intro hreq
      have hreq2 : (q.required && !q.nullable) = true := hreq
      have hgq : param_group q = false := by simp [param_group, hreq2]
      rcases hrel with h | ⟨h, _⟩
      · rw [hgq] at h
        exact absurd h (by simp [Bool.lt_iff])
      · rw [hgq] at h
        simpa [param_group, param_is_required] using h
    · intro hg
      rcases hrel with h | ⟨_, hn⟩
      · exact absurd h (hg ▸ lt_irrefl _)
      · exact hn
  · intro l₁ l₂ hperm hnodup
    have hn₁ : ((sorted_param_specs l₁).map ParamSpec.name).Nodup :=
      (((sorted_param_specs_perm l₁).map ParamSpec.name).nodup_iff).mpr hnodup
    have hn₂ : ((sorted_param_specs l₂).map ParamSpec.name).Nodup := by
      refine (((sorted_param_specs_perm l₂).map ParamSpec.name).nodup_iff).mpr ?_
      exact ((hperm.map ParamSpec.name).nodup_iff).mp hnodup
    exact List.eq_of_perm_of_sorted
      ((sorted_param_specs_perm l₁).trans
        (hperm.trans (sorted_param_specs_perm l₂).symm))
      (sorted_of_le_of_distinct_names _ (sorted_param_specs_sorted l₁) hn₁)
      (sorted_of_le_of_distinct_names _ (sorted_param_specs_sorted l₂) hn₂)

/-- Witness for required_nullable_policy: a required nullable parameter
gets default None, a required non-nullable one does not; sorting the
two-element list puts the required parameter a before the optional b and
is invariant under permuting the input. -/
theorem required_nullable_policy_witness :
    param_has_default_none ⟨"a", "str", true, true⟩ = true
    ∧ (param_has_default_none ⟨"a", "str", true, false⟩ = false
        ∧ param_is_required ⟨"a", "str", true, false⟩ = true)
    ∧ ((param_is_required (⟨"b", "str", false, false⟩ : ParamSpec) = true →
          param_is_required (⟨"a", "str", true, false⟩ : ParamSpec) = true)
        ∧ (param_group (⟨"a", "str", true, false⟩ : ParamSpec) =
            param_group (⟨"b", "str", false, false⟩ : ParamSpec) →
            (⟨"a", "str", true, false⟩ : ParamSpec).name ≤
              (⟨"b", "str", false, false⟩ : ParamSpec).name))
    ∧ sorted_param_specs
        [⟨"b", "str", false, false⟩, ⟨"a", "str", true, false⟩] =
      sorted_param_specs
        [⟨"a", "str", true, false⟩, ⟨"b", "str", false, false⟩] := by
  refine ⟨required_nullable_policy.1 _ rfl rfl,
    required_nullable_policy.2.1 _ rfl rfl,
    required_nullable_policy.2.2.1
      [⟨"b", "str", false, false⟩, ⟨"a", "str", true, false⟩] 0 1
      ⟨"a", "str", true, false⟩ ⟨"b", "str", false, false⟩
      (by decide) (by decide) (by decide),
    required_nullable_policy.2.2.2 _ _ (by decide) (by decide)⟩

/-! ### Theorems for claim C8 -/

theorem pySplitGo_no_sep (sep : Char) (l : List Char) (h : sep ∉ l) :
    ∀ acc, pySplitGo sep l acc = [acc.reverse ++ l] := by
  induction l with
  | nil => intro acc; simp [pySplitGo]
  | cons c cs ih =>
    intro acc
    have hc : ¬(c = sep) := fun hh => h (hh ▸ List.mem_cons_self c cs)
    have hcs : sep ∉ cs := fun hh => h (List.mem_cons_of_mem c hh)
    simp [pySplitGo, hc, ih hcs, List.reverse_cons, List.append_assoc]

theorem pySplitGo_sep_append (sep : Char) (l₁ l₂ : List Char) (h : sep ∉ l₁) :
    ∀ acc, pySplitGo sep (l₁ ++ sep :: l₂) acc =
      (acc.reverse ++ l₁) :: pySplitGo sep l₂ [] := by
  induction l₁ with
  | nil => intro acc; simp [pySplitGo]
  | cons c cs ih =>
    intro acc
    have hc : ¬(c = sep) := fun hh => h (hh ▸ List.mem_cons_self c cs)
    have hcs : sep ∉ cs := fun hh => h (List.mem_cons_of_mem c hh)
    simp [pySplitGo, hc, ih hcs, List.reverse_cons, List.append_assoc]

theorem pySplit_joinChar (sep : Char) (segs : List String) (hne : segs ≠ [])
    (h : ∀ s ∈ segs, sep ∉ s.data) :
    pySplitChar sep (joinChar sep segs) = segs := by
  induction segs with
  | nil => cases hne rfl
  | cons s rest ih =>
    cases rest with
    | nil =>
      have hs : sep ∉ s.data := h s (by simp)
      simp [pySplitChar, joinChar, pySplitGo_no_sep sep _ hs]
    | cons r rest2 =>
      have hs : sep ∉ s.data := h s (by simp)
      have hrest : ∀ x ∈ r :: rest2, sep ∉ x.data :=
        fun x hx => h x (by simp [hx])
      have hdata : (joinChar sep (s :: r :: rest2)).data =
          s.data ++ sep :: (joinChar sep (r :: rest2)).data := by
        show (s ++ String.mk [sep] ++ joinChar sep (r :: rest2)).data = _
        simp [String.data_append]
      rw [pySplitChar, hdata, pySplitGo_sep_append sep _ _ hs]
      simp only [List.reverse_nil, List.nil_append, List.map_cons]
      rw [show (pySplitGo sep (joinChar sep (r :: rest2)).data []).map
          String.mk = pySplitChar sep (joinChar sep (r :: rest2)) from rfl]
      rw [ih (by simp) hrest]

theorem listStartsWith_append (p r : List Char) :
    listStartsWith p (p ++ r) = true := by
  induction p with
  | nil => rfl
  | cons c cs ih => simp [listStartsWith, ih]

theorem pyStartsWith_append (pre rest : String) :
    pyStartsWith (pre ++ rest) pre = true := by
  simp [pyStartsWith, String.data_append, listStartsWith_append]

theorem pyDrop_append (pre rest : String) :
    pyDrop (pre ++ rest) pre.data.length = rest := by
  simp [pyDrop, String.data_append, List.drop_left]

/-- Counterexample to C8 as stated: the path /npl/pkg/Proto/seg has
exactly one extra segment after the protocol name, matches neither the
claimed creation pattern (no further segments) nor the claimed action
pattern (id plus action), yet the code classifies it as a creation path
and compiles a creation tool instead of ignoring it. -/
theorem openapi_path_extra_segment_cex :
    parse_openapi_path "/npl/pkg/Proto/seg" "pkg" = (some "Proto", none)
    ∧ is_protocol_creation_path "/npl/pkg/Proto/seg" "pkg" = true
    ∧ classify_post_path "/npl/pkg/Proto/seg" "pkg" = PathKind.creation := by
  refine ⟨?_, ?_, ?_⟩ <;> decide

/-- C8 amended: for a POST path built from the package root and
well-formed segments, zero segments are ignored, one segment or two
segments are compiled as a creation tool (two segments being the
fall-through of parse_openapi_path), and three or more segments are
compiled as an action tool whose action name is the last segment. -/
theorem classify_post_path_characterization (package : String)
    (segs : List String) (hgood : ∀ s ∈ segs, good_segment s) :
    parse_openapi_path ("/npl/" ++ package ++ "/" ++ joinChar '/' segs)
        package =
      (if segs.length = 0 then (none, none)
       else if segs.length ≤ 2 then (some (segs.headD ""), none)
       else (some (segs.headD ""), some (segs.getLastD "")))
    ∧ classify_post_path ("/npl/" ++ package ++ "/" ++ joinChar '/' segs)
        package =
      (if segs.length = 0 then .ignored
       else if segs.length ≤ 2 then .creation
       else .action) := by
  have hparts :
      ((pySplitChar '/' (pyDrop (("/npl/" ++ package ++ "/") ++
          joinChar '/' segs) ("/npl/" ++ package ++ "/").data.length)).filter
        (fun p => decide (p ≠ "") && decide (p ≠ "-"))) = segs := by
    rw [pyDrop_append]
    cases hsegs : segs with
    | nil => rfl
    | cons s rest =>
      rw [← hsegs, pySplit_joinChar '/' segs (by rw [hsegs]; simp)
        (fun x hx => (hgood x hx).2.2)]
      refine List.filter_eq_self.mpr ?_
      intro a ha
      obtain ⟨h1, h2, _⟩ := hgood a ha
      simp [h1, h2]
  have hparse : parse_openapi_path
      ("/npl/" ++ package ++ "/" ++ joinChar '/' segs) package =
      (if segs.length = 0 then (none, none)
       else if segs.length ≤ 2 then (some (segs.headD ""), none)
       else (some (segs.headD ""), some (segs.getLastD ""))) := by
    rw [show "/npl/" ++ package ++ "/" ++ joinChar '/' segs =
      ("/npl/" ++ package ++ "/") ++ joinChar '/' segs from rfl,
      parse_openapi_path]
    simp only [pyStartsWith_append, if_true, hparts]
    cases segs with
    | nil => rfl
    | cons p rest =>
      simp only [List.length_cons, List.headD_cons]
      by_cases h1 : rest.length + 1 = 1
      · rw [if_pos h1]
        have h0 : ¬(rest.length + 1 = 0) := by omega
        have h2 : rest.length + 1 ≤ 2 := by omega
        simp [h0, h2]
      · rw [if_neg h1]
        by_cases h3 : 3 ≤ rest.length + 1
        · rw [if_pos h3]
          have h0 : ¬(rest.length + 1 = 0) := by omega
          have h2 : ¬(rest.length + 1 ≤ 2) := by omega
          simp [h0, h2]
        · rw [if_neg h3]
          have h0 : ¬(rest.length + 1 = 0) := by omega
          have h2 : rest.length + 1 ≤ 2 := by omega
          simp [h0, h2]
  refine ⟨hparse, ?_⟩
  rw [classify_post_path, is_protocol_creation_path,
    is_action_execution_path, hparse]
  by_cases h0 : segs.length = 0
  · simp [h0]
  · by_cases h2 : segs.length ≤ 2
    · simp [h0, h2]
    · simp [h0, h2]

/-- Witness for classify_post_path_characterization at a three-segment
action path. -/
theorem classify_post_path_characterization_witness :
    parse_openapi_path ("/npl/" ++ "pkg" ++ "/" ++
        joinChar '/' ["Proto", "id0", "act"]) "pkg" =
      (some "Proto", some "act")
    ∧ classify_post_path ("/npl/" ++ "pkg" ++ "/" ++
        joinChar '/' ["Proto", "id0", "act"]) "pkg" = PathKind.action := by
  have h := classify_post_path_characterization "pkg" ["Proto", "id0", "act"]
    (by intro s hs; fin_cases hs <;> exact ⟨by decide, by decide, by decide⟩)
  exact ⟨h.1.trans (by decide), h.2.trans (by decide)⟩

/-! ### Theorems for claim C10 -/

theorem party_keys_mem (ps : List String) (role : String) (h : role ∈ ps) :
    (role ++ "_organization") ∈ party_keys ps
    ∧ (role ++ "_department") ∈ party_keys ps := by
  induction ps with
  | nil => cases h
  | cons p rest ih =>
    rcases List.mem_cons.mp h with h | h
    · subst h
      exact ⟨List.mem_cons_self _ _,
        List.mem_cons_of_mem _ (List.mem_cons_self _ _)⟩
    · exact ⟨List.mem_cons_of_mem _ (List.mem_cons_of_mem _ (ih h).1),
        List.mem_cons_of_mem _ (List.mem_cons_of_mem _ (ih h).2)⟩

theorem assocLookup_erase_none {β : Type} (l : List (String × β))
    (k k2 : String) (h : assocLookup l k = none) :
    assocLookup (assocErase l k2) k = none := by
  by_cases hk : k = k2
  · subst hk
    exact assocLookup_erase_self l k
  · rw [assocLookup_erase_ne l k2 k hk]
    exact h

theorem build_parties_snd_none (ps : List String)
    (kwargs : List (String × Json)) (k : String)
    (h : assocLookup kwargs k = none) :
    assocLookup (build_parties ps kwargs).2 k = none := by
  induction ps generalizing kwargs with
  | nil => exact h
  | cons p rest ih =>
    simp only [build_parties]
    split
    · exact ih _ (assocLookup_erase_none _ _ _ (assocLookup_erase_none _ _ _ h))
    · exact ih _ (assocLookup_erase_none _ _ _ (assocLookup_erase_none _ _ _ h))

theorem build_parties_fst_none (ps : List String)
    (kwargs : List (String × Json)) (role : String) (h : role ∉ ps) :
    assocLookup (build_parties ps kwargs).1 role = none := by
  induction ps generalizing kwargs with
  | nil => rfl
  | cons p rest ih =>
    have hp : ¬(p = role) := fun hh => h (hh ▸ List.mem_cons_self p rest)
    have hrest : role ∉ rest := fun hh => h (List.mem_cons_of_mem p hh)
    simp only [build_parties]
    split
    · simp only [assocLookup, hp, if_false]
      exact ih _ hrest
    · exact ih _ hrest

/-- C10: a declared party role appears in the parties map exactly when
both of its flattened parameters carry truthy values in the supplied
keyword map, in which case the stored claims object holds those two
values; and both flattened keys are removed from the remaining keyword
map (the business-data payload) unconditionally. -/
theorem party_reassembly (ps : List String) (kwargs : List (String × Json))
    (hnd : (party_keys ps).Nodup) (role : String) (hrole : role ∈ ps) :
    (assocLookup (build_parties ps kwargs).1 role =
      (if py_truthy (assocLookup kwargs (role ++ "_organization"))
          && py_truthy (assocLookup kwargs (role ++ "_department")) then
        some (party_claims
          ((assocLookup kwargs (role ++ "_organization")).getD .null)
          ((assocLookup kwargs (role ++ "_department")).getD .null))
      else none))
    ∧ assocLookup (build_parties ps kwargs).2 (role ++ "_organization") = none
    ∧ assocLookup (build_parties ps kwargs).2 (role ++ "_department") = none := by
  induction ps generalizing kwargs with
  | nil => cases hrole
  | cons p rest ih =>
    have hnd' := hnd
    simp only [party_keys, List.nodup_cons, List.mem_cons] at hnd'
    obtain ⟨hno, hnd2⟩ := hnd'
    obtain ⟨hnd3, hnd4⟩ := hnd2
    have hod : ¬(p ++ "_organization" = p ++ "_department") :=
      fun hh => hno (Or.inl hh)
    rcases List.mem_cons.mp hrole with hr | hr
    · -- the role is the head party
      subst hr
      have hdept : assocLookup (assocErase kwargs (role ++ "_organization"))
          (role ++ "_department") = assocLookup kwargs (role ++ "_department") :=
        assocLookup_erase_ne _ _ _ (fun hh => hod hh.symm)
      have hrole_notin : role ∉ rest := by
        intro hh
        exact hno (Or.inr (party_keys_mem rest role hh).1)
      have horg2 : assocLookup (assocErase
          (assocErase kwargs (role ++ "_organization"))
          (role ++ "_department")) (role ++ "_organization") = none :=
        assocLookup_erase_none _ _ _ (assocLookup_erase_self _ _)
      have hdept2 : assocLookup (assocErase
          (assocErase kwargs (role ++ "_organization"))
          (role ++ "_department")) (role ++ "_department") = none :=
        assocLookup_erase_self _ _
      simp only [build_parties, hdept]
      split
      · refine ⟨?_, build_parties_snd_none _ _ _ horg2,
          build_parties_snd_none _ _ _ hdept2⟩
        simp [assocLookup]
      · refine ⟨?_, build_parties_snd_none _ _ _ horg2,
          build_parties_snd_none _ _ _ hdept2⟩
        exact build_parties_fst_none _ _ _ hrole_notin
    · -- the role is among the remaining parties
      have hpr : ¬(p = role) := by
        intro hh
        subst hh
        exact hno (Or.inr (party_keys_mem rest p hr).1)
      have horgne : role ++ "_organization" ≠ p ++ "_organization" := by
        intro hh
        have := (party_keys_mem rest role hr).1
        rw [hh] at this
        exact hno (Or.inr this)
      have horgne2 : role ++ "_organization" ≠ p ++ "_department" := by
        intro hh
        have := (party_keys_mem rest role hr).1
        rw [hh] at this
        exact hnd3 this
      have hdeptne : role ++ "_department" ≠ p ++ "_organization" := by
        intro hh
        have := (party_keys_mem rest role hr).2
        rw [hh] at this
        exact hno (Or.inr this)
      have hdeptne2 : role ++ "_department" ≠ p ++ "_department" := by
        intro hh
        have := (party_keys_mem rest role hr).2
        rw [hh] at this
        exact hnd3 this
      have hlorg : assocLookup (assocErase
          (assocErase kwargs (p ++ "_organization")) (p ++ "_department"))
          (role ++ "_organization") =
          assocLookup kwargs (role ++ "_organization") := by
        rw [assocLookup_erase_ne _ _ _ horgne2,
          assocLookup_erase_ne _ _ _ horgne]
      have hldept : assocLookup (assocErase
          (assocErase kwargs (p ++ "_organization")) (p ++ "_department"))
          (role ++ "_department") =
          assocLookup kwargs (role ++ "_department") := by
        rw [assocLookup_erase_ne _ _ _ hdeptne2,
          assocLookup_erase_ne _ _ _ hdeptne]
      have hrec := ih (assocErase
        (assocErase kwargs (p ++ "_organization")) (p ++ "_department"))
        hnd4 hr
      rw [hlorg, hldept] at hrec
      simp only [build_parties]
      split
      · exact ⟨by simpa [assocLookup, hpr] using hrec.1, hrec.2.1, hrec.2.2⟩
      · exact hrec

/-- Witness for party_reassembly: one declared role buyer with both
parameters supplied and truthy appears in the parties map with its
claims, and both keys leave the payload. -/
theorem party_reassembly_witness :
    assocLookup (build_parties ["buyer"]
        [("buyer_organization", .prim "org1"),
          ("buyer_department", .prim "dep1"), ("other", .prim "x")]).1
      "buyer" = some (party_claims (.prim "org1") (.prim "dep1"))
    ∧ assocLookup (build_parties ["buyer"]
        [("buyer_organization", .prim "org1"),
          ("buyer_department", .prim "dep1"), ("other", .prim "x")]).2
      "buyer_organization" = none
    ∧ assocLookup (build_parties ["buyer"]
        [("buyer_organization", .prim "org1"),
          ("buyer_department", .prim "dep1"), ("other", .prim "x")]).2
      "buyer_department" = none := by
  have h := party_reassembly ["buyer"]
    [("buyer_organization", .prim "org1"),
      ("buyer_department", .prim "dep1"), ("other", .prim "x")]
    (by decide) "buyer" (by decide)
  refine ⟨h.1.trans ?_, h.2.1, h.2.2⟩
  rfl

/-! ### Counterexample for claim C2 -/

/-- Counterexample to C2 as stated: a schema with the single top-level
property a_b (no name collision is possible) and the fully populated
object with value v at key a_b; the flattened parameter is named a_b, but
unflattening splits that name on the underscore and rebuilds the nested
object a with child b, which is not structurally equal to the original
object: the value sits at path a.b instead of path a_b. -/
theorem flatten_unflatten_cex :
    flatten_props [("a_b", .leaf "str" false)] ["a_b"] "" =
      [⟨"a_b", "str", true, false⟩]
    ∧ flatten_args [("a_b", .leaf "str" false)] [("a_b", .prim "v")] =
      [("a_b", .prim "v")]
    ∧ conforms (.nObj [("a_b", .leaf "str" false)] ["a_b"])
        (.obj [("a_b", .prim "v")]) = true
    ∧ unflatten_data (flatten_props [("a_b", .leaf "str" false)] ["a_b"] "")
        (flatten_args [("a_b", .leaf "str" false)] [("a_b", .prim "v")]) =
      some [("a", .obj [("b", .prim "v")])]
    ∧ jEquiv (.obj [("a", .obj [("b", .prim "v")])])
        (.obj [("a_b", .prim "v")]) = false :=
  ⟨rfl, rfl, rfl, rfl, rfl⟩

/-! ### Association-list and key lemmas for the invariant -/

theorem nodup_keys_iff (ks : List String) :
    nodup_keys ks = true ↔ ks.Nodup := by
  induction ks with
  | nil => simp [nodup_keys]
  | cons k rest ih => simp [nodup_keys, List.nodup_cons, ih]

theorem assocSet_lookup_self {β : Type} (l : List (String × β))
    (k : String) (v : β) : assocLookup (assocSet l k v) k = some v := by
  induction l with
  | nil => simp [assocSet, assocLookup]
  | cons hd tl ih =>
    obtain ⟨k0, w0⟩ := hd
    by_cases h : k0 = k <;> simp [assocSet, assocLookup, h, ih]

theorem assocSet_lookup_ne {β : Type} (l : List (String × β))
    (k : String) (v : β) (k2 : String) (h : k2 ≠ k) :
    assocLookup (assocSet l k v) k2 = assocLookup l k2 := by
  induction l with
  | nil => simp [assocSet, assocLookup, Ne.symm h]
  | cons hd tl ih =>
    obtain ⟨k0, w0⟩ := hd
    by_cases h0 : k0 = k
    · subst h0
      simp [assocSet, assocLookup, Ne.symm h]
    · by_cases h2 : k0 = k2 <;> simp [assocSet, assocLookup, h0, h2, h, ih]

theorem assocSet_mem {β : Type} (l : List (String × β)) (k : String) (v : β)
    (k2 : String) (w : β) (h : (k2, w) ∈ assocSet l k v) :
    (k2 = k ∧ w = v) ∨ (k2, w) ∈ l := by
  induction l with
  | nil =>
    simp [assocSet] at h
    exact Or.inl ⟨h.1, h.2⟩
  | cons hd tl ih =>
    obtain ⟨k0, w0⟩ := hd
    by_cases h0 : k0 = k
    · subst h0
      simp only [assocSet, if_pos rfl] at h
      rcases List.mem_cons.mp h with h | h
      · exact Or.inl ⟨congrArg Prod.fst h, congrArg Prod.snd h⟩
      · exact Or.inr (List.mem_cons_of_mem _ h)
    · simp only [assocSet, if_neg h0] at h
      rcases List.mem_cons.mp h with h | h
      · exact Or.inr (h ▸ List.mem_cons_self _ _)
      · rcases ih h with h | h
        · exact Or.inl h
        · exact Or.inr (List.mem_cons_of_mem _ h)

theorem assocSet_keys_mem {β : Type} (l : List (String × β)) (k : String)
    (v : β) (x : String) (h : x ∈ (assocSet l k v).map Prod.fst) :
    x ∈ l.map Prod.fst ∨ x = k := by
  obtain ⟨⟨k2, w⟩, hmem, hx⟩ := List.mem_map.mp h
  rcases assocSet_mem l k v k2 w hmem with ⟨h1, _⟩ | h1
  · exact Or.inr (hx ▸ h1)
  · exact Or.inl (hx ▸ List.mem_map_of_mem Prod.fst h1)

theorem assocSet_keys_nodup {β : Type} (l : List (String × β)) (k : String)
    (v : β) (h : nodup_keys (l.map Prod.fst) = true) :
    nodup_keys ((assocSet l k v).map Prod.fst) = true := by
  rw [nodup_keys_iff] at h ⊢
  induction l with
  | nil => simp [assocSet]
  | cons hd tl ih =>
    obtain ⟨k0, w0⟩ := hd
    simp only [List.map_cons, List.nodup_cons] at h
    by_cases h0 : k0 = k
    · subst h0
      simpa [assocSet, List.nodup_cons] using h
    · simp only [assocSet, if_neg h0, List.map_cons, List.nodup_cons]
      refine ⟨?_, ih h.2⟩
      intro hmem
      rcases assocSet_keys_mem tl k v k0 hmem with hh | hh
      · exact h.1 hh
      · exact h0 hh

theorem assocLookup_none_iff {β : Type} (l : List (String × β))
    (k : String) : assocLookup l k = none ↔ ∀ p ∈ l, p.1 ≠ k := by
  induction l with
  | nil => simp [assocLookup]
  | cons hd tl ih =>
    obtain ⟨k0, w0⟩ := hd
    by_cases h0 : k0 = k <;> simp [assocLookup, h0, ih]

theorem assocLookup_mem {β : Type} (l : List (String × β)) (k : String)
    (v : β) (h : assocLookup l k = some v) : (k, v) ∈ l := by
  induction l with
  | nil => simp [assocLookup] at h
  | cons hd tl ih =>
    obtain ⟨k0, w0⟩ := hd
    by_cases h0 : k0 = k
    · subst h0
      simp [assocLookup] at h
      subst h
      exact List.mem_cons_self _ _
    · simp only [assocLookup, if_neg h0] at h
      exact List.mem_cons_of_mem _ (ih h)

theorem assocLookup_mem_keys {β : Type} (l : List (String × β)) (k : String)
    (v : β) (h : assocLookup l k = some v) : k ∈ l.map Prod.fst :=
  List.mem_map.mpr ⟨(k, v), assocLookup_mem l k v h, rfl⟩

theorem assocLookup_mem_nodup {β : Type} (l : List (String × β)) (k : String)
    (v : β) (hnd : (l.map Prod.fst).Nodup) (h : (k, v) ∈ l) :
    assocLookup l k = some v := by
  induction l with
  | nil => cases h
  | cons hd tl ih =>
    obtain ⟨k0, w0⟩ := hd
    simp only [List.map_cons, List.nodup_cons] at hnd
    rcases List.mem_cons.mp h with h | h
    · cases h
      simp [assocLookup]
    · have hk : ¬(k0 = k) := by
        intro hh
        subst hh
        exact hnd.1 (List.mem_map_of_mem Prod.fst h)
      simp only [assocLookup, if_neg hk]
      exact ih hnd.2 h

theorem SubFields_nil (props : List (String × SchemaNode))
    (fields : List (String × Json)) : SubFields [] props fields := by
  simp [SubFields]

theorem SubFields_mem (out : List (String × Json))
    (props : List (String × SchemaNode)) (fields : List (String × Json))
    (h : SubFields out props fields) (k : String) (w : Json)
    (hmem : (k, w) ∈ out) :
    ∃ s ov, assocLookup props k = some s ∧ assocLookup fields k = some ov
      ∧ SubVal w s ov := by
  induction out with
  | nil => cases hmem
  | cons hd tl ih =>
    obtain ⟨k0, w0⟩ := hd
    rw [SubFields] at h
    rcases List.mem_cons.mp hmem with hh | hh
    · cases hh
      exact h.1
    · exact ih h.2 hh

theorem SubFields_of_forall (out : List (String × Json))
    (props : List (String × SchemaNode)) (fields : List (String × Json))
    (h : ∀ k w, (k, w) ∈ out →
      ∃ s ov, assocLookup props k = some s ∧ assocLookup fields k = some ov
        ∧ SubVal w s ov) :
    SubFields out props fields := by
  induction out with
  | nil => exact SubFields_nil props fields
  | cons hd tl ih =>
    obtain ⟨k0, w0⟩ := hd
    rw [SubFields]
    exact ⟨h k0 w0 (List.mem_cons_self _ _),
      ih (fun k w hm => h k w (List.mem_cons_of_mem _ hm))⟩

theorem get_value_single (fields : List (String × Json)) (k : String) :
    get_value fields [k] = assocLookup fields k := by
  cases h : assocLookup fields k <;> simp [get_value, h]

theorem get_node_single (props : List (String × SchemaNode)) (k : String) :
    get_node props [k] = assocLookup props k := by
  cases h : assocLookup props k <;> simp [get_node, h]

theorem get_value_cons2 (fields : List (String × Json)) (k r2 : String)
    (rs : List String) :
    get_value fields (k :: r2 :: rs) =
      (match assocLookup fields k with
       | some (.obj f2) => get_value f2 (r2 :: rs)
       | _ => none) := by
  cases h : assocLookup fields k with
  | none => simp [get_value, h]
  | some v => cases v <;> simp [get_value, h]

theorem get_node_cons2 (props : List (String × SchemaNode)) (k r2 : String)
    (rs : List String) :
    get_node props (k :: r2 :: rs) =
      (match assocLookup props k with
       | some (.nObj props2 _) => get_node props2 (r2 :: rs)
       | _ => none) := by
  cases h : assocLookup props k with
  | none => simp [get_node, h]
  | some s => cases s <;> simp [get_node, h]

/-- One unflattening insert at a leaf path with the original value
succeeds, keeps the invariant, makes the inserted value readable at its
path, and does not disturb any other leaf value already present. -/
theorem insert_walk_step :
    ∀ (p : List String) (props : List (String × SchemaNode))
      (fields out : List (String × Json)) (v : Json),
      SubObj out props fields →
      is_leaf_node (get_node props p) = true →
      get_value fields p = some v →
      ∃ out2, insert_walk out p v = some out2
        ∧ SubObj out2 props fields
        ∧ get_value out2 p = some v
        ∧ (∀ q w, is_leaf_node (get_node props q) = true →
            get_value fields q = some w →
            get_value out q = some w → get_value out2 q = some w) := by
  intro p
  induction p with
  | nil =>
    intro props fields out v _ hleaf _
    simp [get_node, is_leaf_node] at hleaf
  | cons k rest ih =>
    intro props fields out v hsub hleaf hval
    obtain ⟨hnodup, hflds⟩ := hsub
    cases rest with
    | nil =>
      rw [get_node_single] at hleaf
      rw [get_value_single] at hval
      cases hl : assocLookup props k with
      | none => rw [hl] at hleaf; simp [is_leaf_node] at hleaf
      | some s =>
        cases s with
        | nObj _ _ => rw [hl] at hleaf; simp [is_leaf_node] at hleaf
        | leaf t nb =>
          refine ⟨assocSet out k v, rfl, ?_, ?_, ?_⟩
          · refine ⟨assocSet_keys_nodup _ _ _ hnodup,
              SubFields_of_forall _ _ _ ?_⟩
            intro k2 w hmem
            rcases assocSet_mem _ _ _ _ _ hmem with ⟨hk2, hw⟩ | hmem2
            · subst hk2; subst hw
              exact ⟨.leaf t nb, _, hl, hval, by rw [SubVal]⟩
            · exact SubFields_mem _ _ _ hflds _ _ hmem2
          · rw [get_value_single, assocSet_lookup_self]
          · intro q w hqleaf hqval hqout
            cases q with
            | nil => simp [get_node, is_leaf_node] at hqleaf
            | cons kq restq =>
              by_cases hkq : kq = k
              · subst hkq
                cases restq with
                | nil =>
                  rw [get_value_single] at hqval
                  rw [hval] at hqval
                  cases hqval
                  rw [get_value_single, assocSet_lookup_self]
                | cons a b =>
                  rw [get_node_cons2, hl] at hqleaf
                  simp [is_leaf_node] at hqleaf
              · cases restq with
                | nil =>
                  rw [get_value_single] at hqout ⊢
                  rw [assocSet_lookup_ne _ _ _ _ hkq]
                  exact hqout
                | cons a b =>
                  rw [get_value_cons2] at hqout ⊢
                  rw [assocSet_lookup_ne _ _ _ _ hkq]
                  exact hqout
    | cons r2 rs =>
      rw [get_node_cons2] at hleaf
      rw [get_value_cons2] at hval
      cases hl : assocLookup props k with
      | none => rw [hl] at hleaf; simp [is_leaf_node] at hleaf
      | some s =>
        cases s with
        | leaf _ _ => rw [hl] at hleaf; simp [is_leaf_node] at hleaf
        | nObj props2 req2 =>
          rw [hl] at hleaf
          cases hfv : assocLookup fields k with
          | none => rw [hfv] at hval; cases hval
          | some v0 =>
            rw [hfv] at hval
            cases v0 with
            | null => cases hval
            | prim _ => cases hval
            | arr _ => cases hval
            | obj fields2 =>
              cases ho : assocLookup out k with
              | none =>
                have hsub0 : SubObj [] props2 fields2 :=
                  ⟨rfl, SubFields_nil _ _⟩
                obtain ⟨sub2, hw, hsub2, hpres2, hkeep2⟩ :=
                  ih props2 fields2 [] v hsub0 hleaf hval
                refine ⟨assocSet out k (.obj sub2), ?_, ?_, ?_, ?_⟩
                · simp [insert_walk, ho, hw]
                · refine ⟨assocSet_keys_nodup _ _ _ hnodup,
                    SubFields_of_forall _ _ _ ?_⟩
                  intro k2 w hmem
                  rcases assocSet_mem _ _ _ _ _ hmem with ⟨hk2, hw2⟩ | hmem2
                  · subst hk2; subst hw2
                    refine ⟨.nObj props2 req2, .obj fields2, hl, hfv, ?_⟩
                    simp only [SubVal]
                    exact hsub2
                  · exact SubFields_mem _ _ _ hflds _ _ hmem2
                · rw [get_value_cons2, assocSet_lookup_self]
                  exact hpres2
                · intro q w hqleaf hqval hqout
                  cases q with
                  | nil => simp [get_node, is_leaf_node] at hqleaf
                  | cons kq restq =>
                    by_cases hkq : kq = k
                    · subst hkq
                      cases restq with
                      | nil =>
                        rw [get_value_single, ho] at hqout
                        cases hqout
                      | cons a b =>
                        rw [get_value_cons2, ho] at hqout
                        cases hqout
                    · cases restq with
                      | nil =>
                        rw [get_value_single] at hqout ⊢
                        rw [assocSet_lookup_ne _ _ _ _ hkq]
                        exact hqout
                      | cons a b =>
                        rw [get_value_cons2] at hqout ⊢
                        rw [assocSet_lookup_ne _ _ _ _ hkq]
                        exact hqout
              | some w0 =>
                have hmem0 := assocLookup_mem out k w0 ho
                obtain ⟨s', ov', hs', hov', hsv⟩ :=
                  SubFields_mem _ _ _ hflds _ _ hmem0
                rw [hl] at hs'
                rw [hfv] at hov'
                cases hs'
                cases hov'
                cases w0 with
                | null => simp [SubVal] at hsv
                | prim _ => simp [SubVal] at hsv
                | arr _ => simp [SubVal] at hsv
                | obj sub =>
                  rw [SubVal] at hsv
                  obtain ⟨sub2, hw, hsub2, hpres2, hkeep2⟩ :=
                    ih props2 fields2 sub v ⟨hsv.1, hsv.2⟩ hleaf hval
                  refine ⟨assocSet out k (.obj sub2), ?_, ?_, ?_, ?_⟩
                  · simp [insert_walk, ho, hw]
                  · refine ⟨assocSet_keys_nodup _ _ _ hnodup,
                      SubFields_of_forall _ _ _ ?_⟩
                    intro k2 w hmem
                    rcases assocSet_mem _ _ _ _ _ hmem with ⟨hk2, hw2⟩ | hmem2
                    · subst hk2; subst hw2
                      refine ⟨.nObj props2 req2, .obj fields2, hl, hfv, ?_⟩
                      simp only [SubVal]
                      exact hsub2
                    · exact SubFields_mem _ _ _ hflds _ _ hmem2
                  · rw [get_value_cons2, assocSet_lookup_self]
                    exact hpres2
                  · intro q w hqleaf hqval hqout
                    cases q with
                    | nil => simp [get_node, is_leaf_node] at hqleaf
                    | cons kq restq =>
                      by_cases hkq : kq = k
                      · subst hkq
                        cases restq with
                        | nil =>
                          rw [get_node_single, hl] at hqleaf
                          simp [is_leaf_node] at hqleaf
                        | cons a b =>
                          rw [get_node_cons2, hl] at hqleaf
                          rw [get_value_cons2, hfv] at hqval
                          rw [get_value_cons2, ho] at hqout
                          rw [get_value_cons2, assocSet_lookup_self]
                          exact hkeep2 (a :: b) w hqleaf hqval hqout
                      · cases restq with
                        | nil =>
                          rw [get_value_single] at hqout ⊢
                          rw [assocSet_lookup_ne _ _ _ _ hkq]
                          exact hqout
                        | cons a b =>
                          rw [get_value_cons2] at hqout ⊢
                          rw [assocSet_lookup_ne _ _ _ _ hkq]
                          exact hqout

/-- A sequence of unflattening inserts of leaf entries succeeds, keeps
the invariant, makes every inserted entry readable, and preserves every
leaf value already present. -/
theorem run_inserts_ok :
    ∀ (F : List (List String × Json)) (props : List (String × SchemaNode))
      (fields out : List (String × Json)),
      SubObj out props fields →
      (∀ e ∈ F, good_entry props fields e) →
      ∃ out2, run_inserts F out = some out2
        ∧ SubObj out2 props fields
        ∧ (∀ e ∈ F, get_value out2 e.1 = some e.2)
        ∧ (∀ q w, is_leaf_node (get_node props q) = true →
            get_value fields q = some w →
            get_value out q = some w → get_value out2 q = some w) := by
  intro F
  induction F with
  | nil =>
    intro props fields out hsub _
    exact ⟨out, rfl, hsub, by simp, fun q w _ _ h => h⟩
  | cons e rest ih =>
    intro props fields out hsub hF
    obtain ⟨p, v⟩ := e
    have hge := hF (p, v) (List.mem_cons_self _ _)
    obtain ⟨out1, hw1, hsub1, hpres1, hkeep1⟩ :=
      insert_walk_step p props fields out v hsub hge.1 hge.2
    obtain ⟨out2, hw2, hsub2, hpres2, hkeep2⟩ :=
      ih props fields out1 hsub1
        (fun e2 he2 => hF e2 (List.mem_cons_of_mem _ he2))
    refine ⟨out2, ?_, hsub2, ?_, ?_⟩
    · simp [run_inserts, hw1, hw2]
    · intro e2 he2
      rcases List.mem_cons.mp he2 with he2 | he2
      · subst he2
        exact hkeep2 p v hge.1 hge.2 hpres1
      · exact hpres2 e2 he2
    · intro q w h1 h2 h3
      exact hkeep2 q w h1 h2 (hkeep1 q w h1 h2 h3)

theorem prefill_eq_run (params : List ParamSpec)
    (kwargs : List (String × Json)) : ∀ data,
    prefill_nullable params kwargs data =
      run_inserts (prefill_entries params kwargs) data := by
  induction params with
  | nil => intro data; rfl
  | cons param rest ih =>
    intro data
    by_cases hn : param.nullable = true
    · simp only [prefill_nullable, hn, if_true, prefill_entries,
        List.filterMap_cons]
      cases hiw : insert_walk data (pySplitChar '_' param.name)
          ((assocLookup kwargs param.name).getD .null) with
      | some d2 => simpa [run_inserts, hiw] using ih d2
      | none => simp [run_inserts, hiw]
    · simp only [prefill_nullable, hn, if_false, prefill_entries,
        List.filterMap_cons, Bool.false_eq_true]
      exact ih data

theorem insert_kwargs_eq_run (kwargs : List (String × Json)) : ∀ data,
    insert_kwargs kwargs data = run_inserts (kwargs_entries kwargs) data := by
  induction kwargs with
  | nil => intro data; rfl
  | cons kv rest ih =>
    intro data
    obtain ⟨key, value⟩ := kv
    by_cases hn : value.isNull = true
    · simp only [insert_kwargs, hn, if_true, kwargs_entries,
        List.filterMap_cons]
      exact ih data
    · simp only [insert_kwargs, hn, if_false, kwargs_entries,
        List.filterMap_cons, Bool.false_eq_true]
      cases hiw : insert_walk data (pySplitChar '_' key) value with
      | some d2 => simpa [run_inserts, hiw] using ih d2
      | none => simp [run_inserts, hiw]

theorem unflatten_data_eq_runs (params : List ParamSpec)
    (kwargs : List (String × Json)) :
    unflatten_data params kwargs =
      match run_inserts (prefill_entries params kwargs) [] with
      | some d0 => run_inserts (kwargs_entries kwargs) d0
      | none => none := by
  rw [unflatten_data, prefill_eq_run]
  cases run_inserts (prefill_entries params kwargs) [] with
  | some d0 => simp [insert_kwargs_eq_run]
  | none => rfl

theorem get_node_cons (props : List (String × SchemaNode)) (k : String)
    (r : List String) :
    get_node props (k :: r) =
      (match assocLookup props k, r with
       | none, _ => none
       | some s, [] => some s
       | some (.nObj props2 _), _ :: _ => get_node props2 r
       | some (.leaf _ _), _ :: _ => none) := by
  cases h : assocLookup props k with
  | none => cases r <;> simp [get_node, h]
  | some s => cases s <;> cases r <;> simp [get_node, h]

theorem get_value_cons (fields : List (String × Json)) (k : String)
    (r : List String) :
    get_value fields (k :: r) =
      (match assocLookup fields k, r with
       | none, _ => none
       | some v, [] => some v
       | some (.obj fields2), _ :: _ => get_value fields2 r
       | some _, _ :: _ => none) := by
  cases h : assocLookup fields k with
  | none => cases r <;> simp [get_value, h]
  | some v => cases v <;> cases r <;> simp [get_value, h]

theorem get_node_skip (n : String) (s : SchemaNode)
    (ps : List (String × SchemaNode)) (k : String) (r : List String)
    (h : k ≠ n) :
    get_node ((n, s) :: ps) (k :: r) = get_node ps (k :: r) := by
  rw [get_node_cons, get_node_cons]
  have hl : assocLookup ((n, s) :: ps) k = assocLookup ps k := by
    simp [assocLookup, Ne.symm h]
  rw [hl]

theorem get_value_skip (n : String) (v : Json)
    (fs : List (String × Json)) (k : String) (r : List String)
    (h : k ≠ n) :
    get_value ((n, v) :: fs) (k :: r) = get_value fs (k :: r) := by
  rw [get_value_cons, get_value_cons]
  have hl : assocLookup ((n, v) :: fs) k = assocLookup fs k := by
    simp [assocLookup, Ne.symm h]
  rw [hl]

theorem get_node_head_key (props : List (String × SchemaNode))
    (k : String) (r : List String)
    (h : is_leaf_node (get_node props (k :: r)) = true) :
    k ∈ props.map Prod.fst := by
  rw [get_node_cons] at h
  cases hl : assocLookup props k with
  | none => rw [hl] at h; cases r <;> simp [is_leaf_node] at h
  | some s => exact assocLookup_mem_keys props k s hl

mutual

theorem leaf_paths_node_ok : ∀ (s : SchemaNode) (v : Json),
    good_schema s = true → conforms s v = true →
    ∀ p w, (p, w) ∈ leaf_paths_node s v →
      p ≠ [] ∧ (∀ seg ∈ p, good_name seg = true)
      ∧ is_leaf_node (get_node_of s p) = true
      ∧ get_value_of v p = some w ∧ w.isNull = false
  | .leaf _ _, v, _, _, p, w, hmem => by
      simp [leaf_paths_node] at hmem
  | .nObj props req, v, hg, hc, p, w, hmem => by
      cases v with
      | obj fields =>
        rw [leaf_paths_node] at hmem
        have hg2 : good_props props = true := by
          rw [good_schema, Bool.and_eq_true] at hg
          exact hg.2
        have hc2 : conforms_fields props fields = true := by
          rw [conforms] at hc
          exact hc
        have h := leaf_paths_entries_ok props fields hg2 hc2 p w hmem
        exact ⟨h.1, h.2.1, by rw [get_node_of]; exact h.2.2.1,
          by rw [get_value_of]; exact h.2.2.2.1, h.2.2.2.2⟩
      | null => simp [conforms] at hc
      | prim _ => simp [conforms] at hc
      | arr _ => simp [conforms] at hc

theorem leaf_paths_entries_ok : ∀ (props : List (String × SchemaNode))
    (fields : List (String × Json)),
    good_props props = true → conforms_fields props fields = true →
    ∀ p w, (p, w) ∈ leaf_paths_entries props fields →
      p ≠ [] ∧ (∀ seg ∈ p, good_name seg = true)
      ∧ is_leaf_node (get_node props p) = true
      ∧ get_value fields p = some w ∧ w.isNull = false
  | [], fields, _, _, p, w, hmem => by
      simp [leaf_paths_entries] at hmem
  | (n, s) :: ps, [], _, hc, p, w, hmem => by
      simp [conforms_fields] at hc
  | (n, s) :: ps, (m, v) :: fs, hg, hc, p, w, hmem => by
      simp only [conforms_fields, Bool.and_eq_true] at hc
      obtain ⟨⟨hnm, hcv⟩, hcf⟩ := hc
      have hnm2 : n = m := by simpa using hnm
      subst hnm2
      simp only [good_props, Bool.and_eq_true] at hg
      obtain ⟨⟨⟨hgn, hnotin⟩, hgs⟩, hgp⟩ := hg
      have hnotin2 : n ∉ ps.map Prod.fst := by simpa using hnotin
      simp only [leaf_paths_entries] at hmem
      rcases List.mem_append.mp hmem with hA | hB
      · cases s with
        | leaf t nb =>
          simp only [List.mem_singleton] at hA
          cases hA
          refine ⟨by simp, by simpa using hgn, ?_, ?_, ?_⟩
          · rw [get_node_single]
            simp [assocLookup, is_leaf_node]
          · rw [get_value_single]
            simp [assocLookup]
          · simp only [conforms, Bool.and_eq_true] at hcv
            simpa using hcv.1
        | nObj props2 req2 =>
          obtain ⟨⟨p2, w2⟩, hmem2, heq⟩ := List.mem_map.mp hA
          obtain ⟨heq1, heq2⟩ := Prod.mk.injEq .. |>.mp heq
          subst heq2
          have h := leaf_paths_node_ok (.nObj props2 req2) v hgs hcv p2 w2 hmem2
          obtain ⟨hp2ne, hp2segs, hp2leaf, hp2val, hp2null⟩ := h
          cases v with
          | obj fields2 =>
            subst heq1
            cases hp2 : p2 with
            | nil => exact absurd hp2 hp2ne
            | cons a b =>
              subst hp2
              refine ⟨by simp, ?_, ?_, ?_, hp2null⟩
              · intro seg hseg
                rcases List.mem_cons.mp hseg with hseg | hseg
                · exact hseg ▸ hgn
                · exact hp2segs seg hseg
              · rw [get_node_cons]
                have hl : assocLookup ((n, SchemaNode.nObj props2 req2) :: ps)
                    n = some (SchemaNode.nObj props2 req2) := by
                  simp [assocLookup]
                rw [hl]
                rw [get_node_of] at hp2leaf
                exact hp2leaf
              · rw [get_value_cons]
                have hl : assocLookup ((n, Json.obj fields2) :: fs) n =
                    some (Json.obj fields2) := by
                  simp [assocLookup]
                rw [hl]
                rw [get_value_of] at hp2val
                exact hp2val
          | null => simp [conforms] at hcv
          | prim _ => simp [conforms] at hcv
          | arr _ => simp [conforms] at hcv
      · have h := leaf_paths_entries_ok ps fs hgp hcf p w hB
        obtain ⟨hpne, hpsegs, hpleaf, hpval, hpnull⟩ := h
        cases hp : p with
        | nil => exact absurd hp hpne
        | cons k r =>
          subst hp
          have hk : k ∈ ps.map Prod.fst := get_node_head_key ps k r hpleaf
          have hkn : k ≠ n := fun hh => hnotin2 (hh ▸ hk)
          refine ⟨by simp, hpsegs, ?_, ?_, hpnull⟩
          · rw [get_node_skip n s ps k r hkn]
            exact hpleaf
          · rw [get_value_skip n v fs k r hkn]
            exact hpval

end

mutual

theorem leaf_paths_node_nodup : ∀ (s : SchemaNode) (v : Json),
    good_schema s = true → conforms s v = true →
    ((leaf_paths_node s v).map Prod.fst).Nodup
  | .leaf _ _, v, _, _ => by simp [leaf_paths_node]
  | .nObj props req, v, hg, hc => by
      cases v with
      | obj fields =>
        rw [leaf_paths_node]
        have hg2 : good_props props = true := by
          rw [good_schema, Bool.and_eq_true] at hg
          exact hg.2
        have hc2 : conforms_fields props fields = true := by
          rw [conforms] at hc
          exact hc
        exact leaf_paths_entries_nodup props fields hg2 hc2
      | null => simp [conforms] at hc
      | prim _ => simp [conforms] at hc
      | arr _ => simp [conforms] at hc

theorem leaf_paths_entries_nodup : ∀ (props : List (String × SchemaNode))
    (fields : List (String × Json)),
    good_props props = true → conforms_fields props fields = true →
    ((leaf_paths_entries props fields).map Prod.fst).Nodup
  | [], fields, _, _ => by simp [leaf_paths_entries]
  | (n, s) :: ps, [], _, hc => by simp [conforms_fields] at hc
  | (n, s) :: ps, (m, v) :: fs, hg, hc => by
      simp only [conforms_fields, Bool.and_eq_true] at hc
      obtain ⟨⟨hnm, hcv⟩, hcf⟩ := hc
      have hnm2 : n = m := by simpa using hnm
      subst hnm2
      simp only [good_props, Bool.and_eq_true] at hg
      obtain ⟨⟨⟨hgn, hnotin⟩, hgs⟩, hgp⟩ := hg
      have hnotin2 : n ∉ ps.map Prod.fst := by simpa using hnotin
      simp only [leaf_paths_entries]
      rw [List.map_append, List.nodup_append]
      refine ⟨?_, leaf_paths_entries_nodup ps fs hgp hcf, ?_⟩
      · cases s with
        | leaf t nb => simp
        | nObj props2 req2 =>
          rw [List.map_map]
          have hcomp :
              (Prod.fst ∘ fun pw : List String × Json => (n :: pw.1, pw.2)) =
              (fun p : List String => n :: p) ∘ Prod.fst := rfl
          rw [hcomp, ← List.map_map]
          exact List.Nodup.map (fun a b hab => by injection hab)
            (leaf_paths_node_nodup (.nObj props2 req2) v hgs hcv)
      · intro x hx1 hx2
        obtain ⟨⟨p, w⟩, hmemT, hxT⟩ := List.mem_map.mp hx2
        have hT := leaf_paths_entries_ok ps fs hgp hcf p w hmemT
        have hxn : ∃ r, x = n :: r := by
          cases s with
          | leaf t nb =>
            simp at hx1
            exact ⟨[], by simp [hx1]⟩
          | nObj props2 req2 =>
            rw [List.map_map] at hx1
            obtain ⟨pw, _, hxe⟩ := List.mem_map.mp hx1
            exact ⟨pw.1, hxe ▸ rfl⟩
        obtain ⟨r, hxr⟩ := hxn
        have hpx : p = n :: r := by
          have : p = x := hxT
          rw [this, hxr]
        rw [hpx] at hT
        have hk := get_node_head_key ps n r hT.2.2.1
        exact hnotin2 hk

end

mutual

theorem leaf_paths_node_ne : ∀ (s : SchemaNode) (v : Json),
    good_schema s = true → conforms s v = true →
    ∀ props2 req2, s = .nObj props2 req2 → leaf_paths_node s v ≠ []
  | .leaf _ _, _, _, _, _, _, heq => by cases heq
  | .nObj props req, v, hg, hc, props2, req2, _ => by
      cases v with
      | obj fields =>
        rw [leaf_paths_node]
        rw [good_schema, Bool.and_eq_true] at hg
        have hne : props ≠ [] := by
          intro hh
          subst hh
          simp at hg
        refine leaf_paths_entries_ne props fields hg.2 hne ?_
        rw [conforms] at hc
        exact hc
      | null => simp [conforms] at hc
      | prim _ => simp [conforms] at hc
      | arr _ => simp [conforms] at hc

theorem leaf_paths_entries_ne : ∀ (props : List (String × SchemaNode))
    (fields : List (String × Json)),
    good_props props = true → props ≠ [] →
    conforms_fields props fields = true →
    leaf_paths_entries props fields ≠ []
  | [], _, _, hne, _ => absurd rfl hne
  | (n, s) :: ps, [], _, _, hc => by simp [conforms_fields] at hc
  | (n, s) :: ps, (m, v) :: fs, hg, _, hc => by
      simp only [conforms_fields, Bool.and_eq_true] at hc
      obtain ⟨⟨_, hcv⟩, _⟩ := hc
      simp only [good_props, Bool.and_eq_true] at hg
      obtain ⟨⟨⟨_, _⟩, hgs⟩, _⟩ := hg
      simp only [leaf_paths_entries]
      cases s with
      | leaf t nb => simp
      | nObj props2 req2 =>
        intro happ
        rw [List.append_eq_nil] at happ
        have hne := leaf_paths_node_ne (.nObj props2 req2) v hgs hcv
          props2 req2 rfl
        rw [List.map_eq_nil_iff] at happ
        exact hne happ.1

end

theorem leaf_paths_cover : ∀ (props : List (String × SchemaNode))
    (fields : List (String × Json)),
    good_props props = true → conforms_fields props fields = true →
    ∀ n s, (n, s) ∈ props →
      ∃ r w, (n :: r, w) ∈ leaf_paths_entries props fields := by
  intro props
  induction props with
  | nil =>
    intro fields _ _ n s hmem
    cases hmem
  | cons hd ps ih =>
    obtain ⟨n0, s0⟩ := hd
    intro fields hg hc n s hmem
    cases fields with
    | nil => simp [conforms_fields] at hc
    | cons fhd fs =>
      obtain ⟨m, v⟩ := fhd
      simp only [conforms_fields, Bool.and_eq_true] at hc
      obtain ⟨⟨hnm, hcv⟩, hcf⟩ := hc
      have hnm2 : n0 = m := by simpa using hnm
      subst hnm2
      simp only [good_props, Bool.and_eq_true] at hg
      obtain ⟨⟨⟨_, _⟩, hgs⟩, hgp⟩ := hg
      rcases List.mem_cons.mp hmem with hh | hh
      · obtain ⟨h1, h2⟩ := Prod.mk.injEq .. |>.mp hh
        subst h1
        cases s0 with
        | leaf t nb =>
          refine ⟨[], v, ?_⟩
          simp only [leaf_paths_entries]
          exact List.mem_append_left _ (List.mem_singleton.mpr rfl)
        | nObj props2 req2 =>
          have hne := leaf_paths_node_ne (.nObj props2 req2) v hgs hcv
            props2 req2 rfl
          obtain ⟨e, he⟩ := List.exists_mem_of_ne_nil _ hne
          obtain ⟨p2, w2⟩ := e
          refine ⟨p2, w2, ?_⟩
          simp only [leaf_paths_entries]
          exact List.mem_append_left _
            (List.mem_map.mpr ⟨(p2, w2), he, rfl⟩)
      · obtain ⟨r, w, hrw⟩ := ih fs hgp hcf n s hh
        refine ⟨r, w, ?_⟩
        simp only [leaf_paths_entries]
        exact List.mem_append_right _ hrw

theorem jEquivFields_of_mem : ∀ (l gs : List (String × Json)),
    (∀ p ∈ l, ∃ w, assocLookup gs p.1 = some w ∧ jEquiv p.2 w = true) →
    jEquivFields l gs = true
  | [], _, _ => by simp [jEquivFields]
  | (k, v) :: rest, gs, h => by
      obtain ⟨w, hw, he⟩ := h (k, v) (List.mem_cons_self _ _)
      rw [jEquivFields, hw]
      simp only [he, Bool.true_and]
      exact jEquivFields_of_mem rest gs
        (fun p hp => h p (List.mem_cons_of_mem _ hp))

mutual

theorem jEquiv_refl : ∀ (j : Json), json_wf j = true → jEquiv j j = true
  | .null, _ => by simp [jEquiv]
  | .prim a, _ => by simp [jEquiv]
  | .arr es, h => by
      rw [json_wf] at h
      rw [jEquiv]
      exact jEquivList_refl es h
  | .obj fs, h => by
      rw [json_wf, Bool.and_eq_true] at h
      rw [jEquiv, Bool.and_eq_true]
      refine ⟨by simp, jEquivFields_of_mem fs fs ?_⟩
      intro p hp
      exact ⟨p.2, assocLookup_mem_nodup fs p.1 p.2
        ((nodup_keys_iff _).mp h.1) (by simpa using hp),
        jEquivFields_refl_all fs h.2 p hp⟩

theorem jEquivList_refl : ∀ (es : List Json), json_wf_list es = true →
    jEquivList es es = true
  | [], _ => by simp [jEquivList]
  | e :: rest, h => by
      rw [json_wf_list, Bool.and_eq_true] at h
      rw [jEquivList, Bool.and_eq_true]
      exact ⟨jEquiv_refl e h.1, jEquivList_refl rest h.2⟩

theorem jEquivFields_refl_all : ∀ (fs : List (String × Json)),
    json_wf_fields fs = true → ∀ p ∈ fs, jEquiv p.2 p.2 = true
  | [], _, p, hp => by cases hp
  | (k, v) :: rest, h, p, hp => by
      rw [json_wf_fields, Bool.and_eq_true] at h
      rcases List.mem_cons.mp hp with hh | hh
      · subst hh
        exact jEquiv_refl v h.1
      · exact jEquivFields_refl_all rest h.2 p hh

end

theorem good_props_keys_nodup : ∀ (props : List (String × SchemaNode)),
    good_props props = true → (props.map Prod.fst).Nodup
  | [], _ => by simp
  | (n, s) :: ps, hg => by
      simp only [good_props, Bool.and_eq_true] at hg
      obtain ⟨⟨⟨_, hnotin⟩, _⟩, hgp⟩ := hg
      simp only [List.map_cons, List.nodup_cons]
      exact ⟨by simpa using hnotin, good_props_keys_nodup ps hgp⟩

theorem good_props_lookup : ∀ (props : List (String × SchemaNode))
    (k : String) (s : SchemaNode),
    good_props props = true → assocLookup props k = some s →
    good_schema s = true
  | [], _, _, _, hl => by simp [assocLookup] at hl
  | (n, s0) :: ps, k, s, hg, hl => by
      simp only [good_props, Bool.and_eq_true] at hg
      obtain ⟨⟨⟨_, _⟩, hgs⟩, hgp⟩ := hg
      by_cases hk : n = k
      · rw [assocLookup, if_pos hk] at hl
        cases hl
        exact hgs
      · rw [assocLookup, if_neg hk] at hl
        exact good_props_lookup ps k s hgp hl

theorem conforms_keys : ∀ (props : List (String × SchemaNode))
    (fields : List (String × Json)),
    conforms_fields props fields = true →
    props.map Prod.fst = fields.map Prod.fst
  | [], [], _ => rfl
  | [], _ :: _, hc => by simp [conforms_fields] at hc
  | _ :: _, [], hc => by simp [conforms_fields] at hc
  | (n, s) :: ps, (m, v) :: fs, hc => by
      simp only [conforms_fields, Bool.and_eq_true] at hc
      obtain ⟨⟨hnm, _⟩, hcf⟩ := hc
      have hnm2 : n = m := by simpa using hnm
      simp only [List.map_cons, hnm2]
      rw [conforms_keys ps fs hcf]

theorem conforms_fields_lookup : ∀ (props : List (String × SchemaNode))
    (fields : List (String × Json)),
    conforms_fields props fields = true →
    ∀ k s, assocLookup props k = some s →
      ∃ v, assocLookup fields k = some v ∧ conforms s v = true
  | [], _, _, k, s, hl => by simp [assocLookup] at hl
  | _ :: _, [], hc, _, _, _ => by simp [conforms_fields] at hc
  | (n, s0) :: ps, (m, v0) :: fs, hc, k, s, hl => by
      simp only [conforms_fields, Bool.and_eq_true] at hc
      obtain ⟨⟨hnm, hcv⟩, hcf⟩ := hc
      have hnm2 : n = m := by simpa using hnm
      subst hnm2
      by_cases hk : n = k
      · rw [assocLookup, if_pos hk] at hl
        cases hl
        exact ⟨v0, by rw [assocLookup, if_pos hk], hcv⟩
      · rw [assocLookup, if_neg hk] at hl
        obtain ⟨v, hv, hcsv⟩ := conforms_fields_lookup ps fs hcf k s hl
        exact ⟨v, by rw [assocLookup, if_neg hk]; exact hv, hcsv⟩

/-- A leaf entry of a child object lifts to a leaf entry of the parent
with the child key prefixed. -/
theorem leaf_paths_lift : ∀ (props : List (String × SchemaNode))
    (fields : List (String × Json)),
    conforms_fields props fields = true →
    ∀ k props2 req2 fields2,
      assocLookup props k = some (.nObj props2 req2) →
      assocLookup fields k = some (.obj fields2) →
      ∀ p2 w2, (p2, w2) ∈ leaf_paths_entries props2 fields2 →
        (k :: p2, w2) ∈ leaf_paths_entries props fields
  | [], _, _, k, _, _, _, hl, _, _, _, _ => by simp [assocLookup] at hl
  | _ :: _, [], hc, _, _, _, _, _, _, _, _, _ => by
      simp [conforms_fields] at hc
  | (n, s0) :: ps, (m, v0) :: fs, hc, k, props2, req2, fields2, hl, hlf,
      p2, w2, hmem2 => by
      simp only [conforms_fields, Bool.and_eq_true] at hc
      obtain ⟨⟨hnm, _⟩, hcf⟩ := hc
      have hnm2 : n = m := by simpa using hnm
      subst hnm2
      by_cases hk : n = k
      · subst hk
        rw [assocLookup, if_pos rfl] at hl hlf
        cases hl
        cases hlf
        simp only [leaf_paths_entries]
        refine List.mem_append_left _ ?_
        rw [leaf_paths_node]
        exact List.mem_map.mpr ⟨(p2, w2), hmem2, rfl⟩
      · rw [assocLookup, if_neg hk] at hl hlf
        have := leaf_paths_lift ps fs hcf k props2 req2 fields2 hl hlf
          p2 w2 hmem2
        simp only [leaf_paths_entries]
        exact List.mem_append_right _ this

theorem flatten_props_cons (n : String) (s : SchemaNode)
    (ps : List (String × SchemaNode)) (req : List String) (pre : String) :
    flatten_props ((n, s) :: ps) req pre =
      (if n = "@parties" then []
       else match s with
         | .nObj props2 req2 =>
             flatten_node (.nObj props2 req2) (pre ++ n ++ "_")
         | .leaf ptype nb =>
             [⟨pre ++ n, ptype, decide (n ∈ req) && !nb, nb⟩])
      ++ flatten_props ps req pre := by
  rw [flatten_props.eq_def]

theorem good_name_no_underscore (n : String) (h : good_name n = true) :
    '_' ∉ n.data := by
  rw [good_name] at h
  simp only [Bool.and_eq_true, Bool.not_eq_true'] at h
  intro hmem
  have h3 := h.2
  simp at h3
  exact h3 hmem

mutual

theorem flatten_node_name_mem : ∀ (s : SchemaNode) (v : Json) (pre : String),
    conforms s v = true →
    ∀ param ∈ flatten_node s pre,
      ∃ p w, (p, w) ∈ leaf_paths_node s v ∧ p ≠ []
        ∧ param.name = pre ++ joinChar '_' p
  | .leaf _ _, _, _, _, param, hmem => by
      simp [flatten_node] at hmem
  | .nObj props req, v, pre, hc, param, hmem => by
      cases v with
      | obj fields =>
        rw [flatten_node] at hmem
        rw [conforms] at hc
        obtain ⟨p, w, hpw, hne, hname⟩ :=
          flatten_props_name_mem props req fields pre hc param hmem
        exact ⟨p, w, by rw [leaf_paths_node]; exact hpw, hne, hname⟩
      | null => simp [conforms] at hc
      | prim _ => simp [conforms] at hc
      | arr _ => simp [conforms] at hc

theorem flatten_props_name_mem : ∀ (props : List (String × SchemaNode))
    (req : List String) (fields : List (String × Json)) (pre : String),
    conforms_fields props fields = true →
    ∀ param ∈ flatten_props props req pre,
      ∃ p w, (p, w) ∈ leaf_paths_entries props fields ∧ p ≠ []
        ∧ param.name = pre ++ joinChar '_' p
  | [], _, _, _, _, param, hmem => by simp [flatten_props] at hmem
  | (n, s) :: ps, req, [], pre, hc, param, hmem => by
      simp [conforms_fields] at hc
  | (n, s) :: ps, req, (m, v) :: fs, pre, hc, param, hmem => by
      simp only [conforms_fields, Bool.and_eq_true] at hc
      obtain ⟨⟨hnm, hcv⟩, hcf⟩ := hc
      have hnm2 : n = m := by simpa using hnm
      subst hnm2
      rw [flatten_props_cons] at hmem
      rcases List.mem_append.mp hmem with hmem1 | hmem1
      · by_cases hpar : n = "@parties"
        · rw [if_pos hpar] at hmem1
          simp at hmem1
        · rw [if_neg hpar] at hmem1
          cases s with
          | leaf t nb =>
            simp only [List.mem_singleton] at hmem1
            subst hmem1
            refine ⟨[n], v, ?_, by simp, rfl⟩
            simp only [leaf_paths_entries]
            exact List.mem_append_left _ (by simp)
          | nObj props2 req2 =>
            obtain ⟨p2, w2, hpw2, hne2, hname2⟩ :=
              flatten_node_name_mem (.nObj props2 req2) v (pre ++ n ++ "_")
                hcv param hmem1
            refine ⟨n :: p2, w2, ?_, by simp, ?_⟩
            · simp only [leaf_paths_entries]
              exact List.mem_append_left _
                (List.mem_map.mpr ⟨(p2, w2), hpw2, rfl⟩)
            · rw [hname2]
              cases p2 with
              | nil => exact absurd rfl hne2
              | cons a b =>
                rw [show joinChar '_' (n :: a :: b)
                  = n ++ "_" ++ joinChar '_' (a :: b) from rfl]
                simp [String.append_assoc]
      · obtain ⟨p, w, hpw, hne, hname⟩ :=
          flatten_props_name_mem ps req fs pre hcf param hmem1
        refine ⟨p, w, ?_, hne, hname⟩
        simp only [leaf_paths_entries]
        exact List.mem_append_right _ hpw

end

theorem joinChar_inj_good (p1 p2 : List String)
    (h1e : p1 ≠ []) (h2e : p2 ≠ [])
    (h1 : ∀ s ∈ p1, '_' ∉ s.data) (h2 : ∀ s ∈ p2, '_' ∉ s.data)
    (heq : joinChar '_' p1 = joinChar '_' p2) : p1 = p2 := by
  have hh := pySplit_joinChar '_' p1 h1e h1
  rw [heq, pySplit_joinChar '_' p2 h2e h2] at hh
  exact hh.symm

theorem assocLookup_map_inj (f : List String → String) :
    ∀ (E : List (List String × Json)),
    (∀ a ∈ E.map Prod.fst, ∀ b ∈ E.map Prod.fst, f a = f b → a = b) →
    (E.map Prod.fst).Nodup →
    ∀ (p : List String) (w : Json), (p, w) ∈ E →
    assocLookup (E.map (fun pw => (f pw.1, pw.2))) (f p) = some w := by
  intro E
  induction E with
  | nil =>
    intro _ _ p w hm
    cases hm
  | cons e rest ih =>
    intro hinj hnd p w hm
    obtain ⟨q, u⟩ := e
    simp only [List.map_cons] at hnd
    rw [List.nodup_cons] at hnd
    rcases List.mem_cons.mp hm with hm1 | hm1
    · have hp : p = q := congrArg Prod.fst hm1
      have hw : w = u := congrArg Prod.snd hm1
      subst hp
      subst hw
      simp [assocLookup]
    · have hpmem : p ∈ rest.map Prod.fst :=
        List.mem_map.mpr ⟨(p, w), hm1, rfl⟩
      have hfp : ¬(f q = f p) := by
        intro hh
        have hq2 : q ∈ ((q, u) :: rest).map Prod.fst := by
          simp only [List.map_cons]
          exact List.mem_cons_self _ _
        have hp2 : p ∈ ((q, u) :: rest).map Prod.fst := by
          simp only [List.map_cons]
          exact List.mem_cons_of_mem _ hpmem
        have := hinj q hq2 p hp2 hh
        exact hnd.1 (this ▸ hpmem)
      simp only [List.map_cons, assocLookup, if_neg hfp]
      refine ih (fun a ha b hb => hinj a ?_ b ?_) hnd.2 p w hm1
      · simp only [List.map_cons]
        exact List.mem_cons_of_mem _ ha
      · simp only [List.map_cons]
        exact List.mem_cons_of_mem _ hb

/-- An object built by the unflattening inserts that satisfies the
invariant and holds every leaf entry is structurally equal to the
original object up to key order. -/
theorem subobj_complete_jEquiv (props : List (String × SchemaNode))
    (fields out : List (String × Json))
    (hg : good_props props = true)
    (hc : conforms_fields props fields = true)
    (hsub : SubObj out props fields)
    (hpres : ∀ p w, (p, w) ∈ leaf_paths_entries props fields →
      get_value out p = some w) :
    jEquiv (.obj out) (.obj fields) = true := by
  obtain ⟨hnodupB, hflds⟩ := hsub
  have hnodupO : (out.map Prod.fst).Nodup := (nodup_keys_iff _).mp hnodupB
  have hkeysPF : props.map Prod.fst = fields.map Prod.fst :=
    conforms_keys props fields hc
  have hnodupP : (props.map Prod.fst).Nodup := good_props_keys_nodup props hg
  have hsubkeys : ∀ x ∈ out.map Prod.fst, x ∈ props.map Prod.fst := by
    intro x hx
    obtain ⟨⟨k, w⟩, hmem, rfl⟩ := List.mem_map.mp hx
    obtain ⟨s, ov, hs, _, _⟩ := SubFields_mem _ _ _ hflds _ _ hmem
    exact assocLookup_mem_keys props k s hs
  have hsupkeys : ∀ x ∈ props.map Prod.fst, x ∈ out.map Prod.fst := by
    intro x hx
    obtain ⟨⟨n, s⟩, hmem, rfl⟩ := List.mem_map.mp hx
    obtain ⟨r, w, hrw⟩ := leaf_paths_cover props fields hg hc n s hmem
    have hgv := hpres (n :: r) w hrw
    rw [get_value_cons] at hgv
    cases ho : assocLookup out n with
    | none =>
      rw [ho] at hgv
      cases r <;> simp at hgv
    | some w0 => exact assocLookup_mem_keys out n w0 ho
  have hperm : List.Perm (out.map Prod.fst) (props.map Prod.fst) :=
    (List.perm_ext_iff_of_nodup hnodupO hnodupP).mpr
      (fun a => ⟨hsubkeys a, hsupkeys a⟩)
  have hlen : out.length = fields.length := by
    have h1 := hperm.length_eq
    simp only [List.length_map] at h1
    have h2 := congrArg List.length hkeysPF
    simp only [List.length_map] at h2
    omega
  rw [jEquiv, Bool.and_eq_true]
  refine ⟨by simp [hlen], jEquivFields_of_mem out fields ?_⟩
  intro pkw hmem0
  obtain ⟨k, w⟩ := pkw
  obtain ⟨s, ov, hs, hov, hsv⟩ := SubFields_mem _ _ _ hflds _ _ hmem0
  obtain ⟨ov2, hov2, hcsv⟩ := conforms_fields_lookup props fields hc k s hs
  rw [hov] at hov2
  have hee := Option.some.inj hov2
  subst hee
  cases s with
  | leaf t nb =>
    rw [SubVal] at hsv
    subst hsv
    refine ⟨w, hov, ?_⟩
    rw [conforms, Bool.and_eq_true] at hcsv
    exact jEquiv_refl w hcsv.2
  | nObj props2 req2 =>
    cases w with
    | null => simp [SubVal] at hsv
    | prim _ => simp [SubVal] at hsv
    | arr _ => simp [SubVal] at hsv
    | obj out2 =>
      cases ov with
      | null => simp [SubVal] at hsv
      | prim _ => simp [SubVal] at hsv
      | arr _ => simp [SubVal] at hsv
      | obj fields2 =>
        rw [SubVal] at hsv
        have hgs := good_props_lookup props k _ hg hs
        rw [good_schema, Bool.and_eq_true] at hgs
        have hcsv2 : conforms_fields props2 fields2 = true := by
          rw [conforms] at hcsv
          exact hcsv
        have hpres2 : ∀ p2 w2, (p2, w2) ∈ leaf_paths_entries props2 fields2 →
            get_value out2 p2 = some w2 := by
          intro p2 w2 hm2
          have hlift := leaf_paths_lift props fields hc k props2 req2 fields2
            hs hov p2 w2 hm2
          have hgv := hpres (k :: p2) w2 hlift
          have hp2ne := (leaf_paths_entries_ok props2 fields2 hgs.2 hcsv2
            p2 w2 hm2).1
          cases hp2 : p2 with
          | nil => exact absurd hp2 hp2ne
          | cons a b =>
            subst hp2
            rw [get_value_cons2] at hgv
            have hok : assocLookup out k = some (Json.obj out2) :=
              assocLookup_mem_nodup out k (Json.obj out2) hnodupO hmem0
            rw [hok] at hgv
            exact hgv
        have hrec := subobj_complete_jEquiv props2 fields2 out2 hgs.2 hcsv2
          ⟨hsv.1, hsv.2⟩ hpres2
        exact ⟨Json.obj fields2, hov, hrec⟩
termination_by sizeOf props
decreasing_by
  have hm := assocLookup_mem _ _ _ hs
  have hsz := List.sizeOf_lt_of_mem hm
  simp only [Prod.mk.sizeOf_spec, SchemaNode.nObj.sizeOf_spec] at hsz
  omega

theorem filterMap_id_of_forall {α : Type} (f : α → Option α) :
    ∀ (l : List α), (∀ x ∈ l, f x = some x) → l.filterMap f = l := by
  intro l
  induction l with
  | nil => intro _; rfl
  | cons a as ih =>
    intro h
    rw [List.filterMap_cons, h a (List.mem_cons_self _ _),
      ih (fun x hx => h x (List.mem_cons_of_mem _ hx))]

theorem kwargs_entries_flatten (props : List (String × SchemaNode))
    (fields : List (String × Json))
    (hg : good_props props = true)
    (hc : conforms_fields props fields = true) :
    kwargs_entries (flatten_args props fields) =
      leaf_paths_entries props fields := by
  rw [kwargs_entries, flatten_args, List.filterMap_map]
  apply filterMap_id_of_forall
  intro pw hpw
  obtain ⟨p, w⟩ := pw
  obtain ⟨hne, hsegs, _, _, hnull⟩ :=
    leaf_paths_entries_ok props fields hg hc p w hpw
  show (if w.isNull = true then none
    else some (pySplitChar '_' (joinChar '_' p), w)) = some (p, w)
  rw [if_neg (by simp [hnull])]
  rw [pySplit_joinChar '_' p hne
    (fun s hs => good_name_no_underscore s (hsegs s hs))]

/-- C2 (amended). When every property name in the schema is nonempty,
distinct per level, free of underscores and not the reserved "@parties",
and every nested object schema is nonempty, the creation impl's
unflattening of the fully populated flattened arguments rebuilds the
original nested data object up to reordering of dict keys. -/
theorem flatten_unflatten_round_trip
    (props : List (String × SchemaNode)) (req : List String)
    (fields : List (String × Json))
    (hg : good_schema (.nObj props req) = true)
    (hc : conforms (.nObj props req) (.obj fields) = true) :
    ∃ out, unflatten_data (flatten_props props req "")
        (flatten_args props fields) = some out
      ∧ jEquiv (.obj out) (.obj fields) = true := by
  have hgp : good_props props = true := by
    rw [good_schema, Bool.and_eq_true] at hg
    exact hg.2
  have hcf : conforms_fields props fields = true := by
    rw [conforms] at hc
    exact hc
  have hE := leaf_paths_entries_ok props fields hgp hcf
  have hEnodup := leaf_paths_entries_nodup props fields hgp hcf
  have hinj : ∀ a ∈ (leaf_paths_entries props fields).map Prod.fst,
      ∀ b ∈ (leaf_paths_entries props fields).map Prod.fst,
      joinChar '_' a = joinChar '_' b → a = b := by
    intro a ha b hb heq
    obtain ⟨⟨pa, wa⟩, hma, hfa⟩ := List.mem_map.mp ha
    obtain ⟨⟨pb, wb⟩, hmb, hfb⟩ := List.mem_map.mp hb
    subst hfa
    subst hfb
    obtain ⟨hane, hasegs, _, _, _⟩ := hE pa wa hma
    obtain ⟨hbne, hbsegs, _, _, _⟩ := hE pb wb hmb
    exact joinChar_inj_good pa pb hane hbne
      (fun s hs => good_name_no_underscore s (hasegs s hs))
      (fun s hs => good_name_no_underscore s (hbsegs s hs)) heq
  have hlook : ∀ p w, (p, w) ∈ leaf_paths_entries props fields →
      assocLookup (flatten_args props fields) (joinChar '_' p) = some w := by
    intro p w hm
    exact assocLookup_map_inj (joinChar '_') _ hinj hEnodup p w hm
  have hkE : kwargs_entries (flatten_args props fields) =
      leaf_paths_entries props fields :=
    kwargs_entries_flatten props fields hgp hcf
  have hpre : ∀ e ∈ prefill_entries (flatten_props props req "")
      (flatten_args props fields), good_entry props fields e := by
    intro e he
    rw [prefill_entries] at he
    obtain ⟨param, hparam, hfe⟩ := List.mem_filterMap.mp he
    by_cases hn : param.nullable = true
    · rw [if_pos hn] at hfe
      cases hfe
      obtain ⟨p, w, hpw, hne, hname⟩ :=
        flatten_props_name_mem props req fields "" hcf param hparam
      obtain ⟨_, hsegs, hleaf, hval, _⟩ := hE p w hpw
      have hname2 : param.name = joinChar '_' p := by
        rw [hname]
        rfl
      have hsplit : pySplitChar '_' param.name = p := by
        rw [hname2]
        exact pySplit_joinChar '_' p hne
          (fun s hs => good_name_no_underscore s (hsegs s hs))
      have hlk : assocLookup (flatten_args props fields) param.name =
          some w := by
        rw [hname2]
        exact hlook p w hpw
      refine ⟨?_, ?_⟩
      · show is_leaf_node
          (get_node props (pySplitChar '_' param.name)) = true
        rw [hsplit]
        exact hleaf
      · show get_value fields (pySplitChar '_' param.name) =
          some ((assocLookup (flatten_args props fields) param.name).getD
            .null)
        rw [hsplit, hlk, Option.getD_some]
        exact hval
    · rw [if_neg hn] at hfe
      simp at hfe
  have hsub0 : SubObj [] props fields := ⟨rfl, trivial⟩
  obtain ⟨d0, hr1, hsub1, _, _⟩ :=
    run_inserts_ok (prefill_entries (flatten_props props req "")
      (flatten_args props fields)) props fields [] hsub0 hpre
  have hkgood : ∀ e ∈ kwargs_entries (flatten_args props fields),
      good_entry props fields e := by
    intro e he
    rw [hkE] at he
    obtain ⟨p, w⟩ := e
    obtain ⟨_, _, hleaf, hval, _⟩ := hE p w he
    exact ⟨hleaf, hval⟩
  obtain ⟨out, hr2, hsub2, hpres2, _⟩ :=
    run_inserts_ok (kwargs_entries (flatten_args props fields)) props fields
      d0 hsub1 hkgood
  refine ⟨out, ?_, ?_⟩
  · rw [unflatten_data_eq_runs, hr1]
    exact hr2
  · refine subobj_complete_jEquiv props fields out hgp hcf hsub2 ?_
    intro p w hm
    exact hpres2 (p, w) (by rw [hkE]; exact hm)

/-- Witness for flatten_unflatten_round_trip: a schema with a required
leaf, a nullable leaf and a nested object, its fully populated data
object, and the round trip through flattening and unflattening. -/
theorem flatten_unflatten_round_trip_witness :
    good_schema (.nObj [("a", .leaf "str" false),
        ("n", .leaf "int" true),
        ("b", .nObj [("c", .leaf "int" false)] ["c"])] ["a"]) = true
    ∧ conforms (.nObj [("a", .leaf "str" false),
        ("n", .leaf "int" true),
        ("b", .nObj [("c", .leaf "int" false)] ["c"])] ["a"])
      (.obj [("a", .prim "x"), ("n", .prim "7"),
        ("b", .obj [("c", .prim "1")])]) = true
    ∧ ∃ out, unflatten_data
        (flatten_props [("a", .leaf "str" false),
          ("n", .leaf "int" true),
          ("b", .nObj [("c", .leaf "int" false)] ["c"])] ["a"] "")
        (flatten_args [("a", .leaf "str" false),
          ("n", .leaf "int" true),
          ("b", .nObj [("c", .leaf "int" false)] ["c"])]
          [("a", .prim "x"), ("n", .prim "7"),
            ("b", .obj [("c", .prim "1")])]) = some out
      ∧ jEquiv (.obj out)
          (.obj [("a", .prim "x"), ("n", .prim "7"),
            ("b", .obj [("c", .prim "1")])]) = true :=
  ⟨rfl, rfl,
    flatten_unflatten_round_trip
      [("a", .leaf "str" false), ("n", .leaf "int" true),
        ("b", .nObj [("c", .leaf "int" false)] ["c"])] ["a"]
      [("a", .prim "x"), ("n", .prim "7"),
        ("b", .obj [("c", .prim "1")])] rfl rfl⟩

end AdkNpl
